import Mathlib

/-!
# Verification of the crush extension (plugin) runtime

Shallow embedding, in Lean 4, of the plugin subsystem of the crush
repository:

* `internal/plugin/registry.go` — the `Registry`, its hook pipelines and the
  trigger operations (`TriggerPermissionRequest`, `TriggerToolExecuteBefore`,
  `TriggerToolExecuteAfter`, `TriggerConfigHooks`, `LoadPlugin`, `Shutdown`);
* `internal/plugin/loader.go` — `loadGoPlugin`, the entry-symbol lookup;
* `internal/app/app.go` — `New` / `initPlugins`, the startup wiring;
* the skills plugin (`skills` package) — `parseSkillMD`, `generateToolName`,
  `discoverSkills`, `getSkillBasePaths`, together with models of the Go
  standard-library string and path functions they use.

Go interface values that may be `nil` are modelled with `Option`; fallible
calls return `Except`; machine strings are `List Char` (`GoStr`); maps with
insertion-ordered association lists.  A hook's behaviour for one fixed
payload is a value (for permission hooks, whose input the pipeline never
changes) or a Lean function (for tool/config hooks, whose input is threaded
through the pipeline).  External libraries (the YAML parser, the OS
environment and the dynamic loader's `Open`) are parameters of the
definitions that call them; everything else is translated from the Go
source.
-/

namespace Crush

/-! ## Registry trigger operations (registry.go)

The triggers copy the pipeline under a read lock and then walk the copy in
order.  We model a pipeline as the list of the (already snapshotted) hook
entries; the lock itself has no sequential content.  Errors carry an
abstract payload type `E` — the Go code wraps hook errors in a fixed
`fmt.Errorf` message (e.g. "permission hook failed: %w") that preserves the
cause, which is the value we track. -/

/-- What one permission hook returns for the fixed request of one trigger
call: an error, or an optional decision (`none` = no decision; `some true` =
allow, `some false` = deny).  Mirrors the return type of
`OnPermissionRequest(ctx, req) (*bool, error)`. -/
abbrev PermOutcome (E : Type) := Except E (Option Bool)

/-- `Registry.TriggerPermissionRequest` (registry.go): walk the hooks in
order; a hook error is returned at once, the first non-nil decision is
returned and stops the walk, and if every hook declines the trigger returns
`(nil, nil)`. -/
def triggerPermissionRequest {E : Type} : List (PermOutcome E) → Except E (Option Bool)
  | [] => .ok none
  | h :: hs =>
    match h with
    | .error e => .error e
    | .ok (some d) => .ok (some d)
    | .ok none => triggerPermissionRequest hs

/-- How many hooks the permission trigger's loop actually invokes: every
hook up to and including the first one that errors or decides. -/
def permInvoked {E : Type} : List (PermOutcome E) → Nat
  | [] => 0
  | h :: hs =>
    match h with
    | .error _ => 1
    | .ok (some _) => 1
    | .ok none => permInvoked hs + 1

/-- `plugin.ToolExecuteInput` (types.go): the record handed to tool hooks.
The argument map is abstracted to a type `α`; the other fields are the
identifying strings the Go struct carries. -/
structure ToolExecuteInput (α : Type) where
  toolName : String
  sessionID : String
  messageID : String
  toolCallID : String
  arguments : α
deriving DecidableEq

/-- A tool execute-before hook: given the (possibly already modified) input
record it returns an error, or `none` (no modification), or `some` modified
arguments.  Mirrors `OnToolExecuteBefore(ctx, input) (map[string]any, error)`. -/
abbrev ToolBeforeHook (α E : Type) := ToolExecuteInput α → Except E (Option α)

/-- `Registry.TriggerToolExecuteBefore` (registry.go): walk the hooks,
threading each non-nil modified-args value into `input.Arguments` for the
next hook; return the final arguments, or the first hook error (with no
arguments). -/
def triggerToolExecuteBefore {α E : Type} :
    List (ToolBeforeHook α E) → ToolExecuteInput α → Except E α
  | [], input => .ok input.arguments
  | h :: hs, input =>
    match h input with
    | .error e => .error e
    | .ok none => triggerToolExecuteBefore hs input
    | .ok (some m) => triggerToolExecuteBefore hs { input with arguments := m }

/-- The trace of the execute-before walk: for each hook the loop actually
invokes, the arguments it received and the value it returned.  The walk (and
hence the trace) stops right after a hook errors. -/
def toolBeforeTrace {α E : Type} :
    List (ToolBeforeHook α E) → ToolExecuteInput α → List (α × Except E (Option α))
  | [], _ => []
  | h :: hs, input =>
    match h input with
    | .error e => [(input.arguments, .error e)]
    | .ok none => (input.arguments, .ok none) :: toolBeforeTrace hs input
    | .ok (some m) =>
        (input.arguments, .ok (some m)) :: toolBeforeTrace hs { input with arguments := m }

/-- A tool execute-after hook: from the input record and the (possibly
already modified) result, an error, or `none`, or `some` modified result.
Mirrors `OnToolExecuteAfter(ctx, input, result) (*ToolExecuteResult, error)`. -/
abbrev ToolAfterHook (α ρ E : Type) := ToolExecuteInput α → ρ → Except E (Option ρ)

/-- `Registry.TriggerToolExecuteAfter` (registry.go): walk the hooks,
threading each non-nil modified result; on a hook error return the result
variable *as it stands at that point* together with the error. -/
def triggerToolExecuteAfter {α ρ E : Type} :
    List (ToolAfterHook α ρ E) → ToolExecuteInput α → ρ → ρ × Option E
  | [], _, result => (result, none)
  | h :: hs, input, result =>
    match h input result with
    | .error e => (result, some e)
    | .ok none => triggerToolExecuteAfter hs input result
    | .ok (some m) => triggerToolExecuteAfter hs input m

/-- The trace of the execute-after walk: for each hook the loop invokes, the
result value it received and the value it returned. -/
def toolAfterTrace {α ρ E : Type} :
    List (ToolAfterHook α ρ E) → ToolExecuteInput α → ρ → List (ρ × Except E (Option ρ))
  | [], _, _ => []
  | h :: hs, input, result =>
    match h input result with
    | .error e => [(result, .error e)]
    | .ok none => (result, .ok none) :: toolAfterTrace hs input result
    | .ok (some m) => (result, .ok (some m)) :: toolAfterTrace hs input m

/-- The last non-`none` entry of a list of optional values (`none` when
there is none).  This is the "last non-nil modification" of the spec. -/
def lastSome {α : Type} : List (Option α) → Option α
  | [] => none
  | m :: ms =>
    match lastSome ms with
    | some y => some y
    | none => m

/-- The modification (or error, read as no modification) each traced hook
returned. -/
def traceMods {β E : Type} (tr : List (β × Except E (Option β))) : List (Option β) :=
  tr.map fun p => match p.2 with | .ok m => m | .error _ => none

/-- Fixture: an execute-before hook that replaces the arguments by their
successor. -/
def beforeHookAdd : ToolBeforeHook Nat String := fun inp => .ok (some (inp.arguments + 1))

/-- Fixture: an execute-before hook that always fails. -/
def beforeHookFail : ToolBeforeHook Nat String := fun _ => .error "boom"

/-- Fixture: a concrete tool-execution input record. -/
def sampleBeforeInput : ToolExecuteInput Nat :=
  { toolName := "view", sessionID := "s1", messageID := "m1", toolCallID := "c1"
    arguments := 0 }

/-- Fixture: an execute-after hook that replaces the result by `5`. -/
def afterHookModify : ToolAfterHook Unit Nat String := fun _ _ => .ok (some 5)

/-- Fixture: an execute-after hook that always fails. -/
def afterHookFail : ToolAfterHook Unit Nat String := fun _ _ => .error "hook failure"

/-- Fixture: a concrete tool-execution input record with unit arguments. -/
def sampleAfterInput : ToolExecuteInput Unit :=
  { toolName := "view", sessionID := "s1", messageID := "m1", toolCallID := "c1"
    arguments := () }

/-! ## Registry state, plugin loading and shutdown (registry.go, types.go)

A Go interface value stored in a hook slot is modelled as
`Option (HookVal β)`: `none` is the `nil` interface, and a present value is
either one of the contract's `Nil*Hook` no-op implementations (`noopImpl`,
as produced by `NewBaseHooks`) or a custom implementation carrying its
behaviour `β`.  The `csync.Map` of plugins is an insertion-ordered
association list. -/

/-- A non-nil hook implementation: the contract's no-op (`NilConfigHook`,
`NilSessionHook`, …) or a custom one with behaviour `β`. -/
inductive HookVal (β : Type) : Type
  | noopImpl
  | impl (behavior : β)
deriving DecidableEq

/-- `plugin.Hooks` (types.go): the six per-kind hook getters of a plugin;
`none` models a getter returning a `nil` interface.  The behaviour types of
the six kinds are parameters. -/
structure HooksRecord (C S M P T A : Type) where
  config : Option (HookVal C)
  session : Option (HookVal S)
  message : Option (HookVal M)
  permission : Option (HookVal P)
  tool : Option (HookVal T)
  agent : Option (HookVal A)
deriving DecidableEq

/-- `plugin.NewBaseHooks` (types.go): every slot holds the contract's no-op
implementation (all non-nil). -/
def newBaseHooks {C S M P T A : Type} : HooksRecord C S M P T A :=
  { config := some .noopImpl, session := some .noopImpl, message := some .noopImpl
    permission := some .noopImpl, tool := some .noopImpl, agent := some .noopImpl }

/-- `plugin.PluginInfo` (types.go). -/
structure PluginInfo where
  name : String
  version : String
  description : String
  author : String
deriving DecidableEq

/-- A loaded plugin, abstracted to what the registry observes of it: its
metadata, the outcome of `Init` (`none` = success), its hooks, and the
outcome of `Shutdown`. -/
structure PluginM (E C S M P T A : Type) where
  info : PluginInfo
  initErr : Option E
  hooks : HooksRecord C S M P T A
  shutdownErr : Option E
deriving DecidableEq

/-- `plugin.Registry` (registry.go): the name-keyed plugin map (insertion
ordered) and the six hook pipelines. -/
structure Registry (E C S M P T A : Type) where
  plugins : List (String × PluginM E C S M P T A)
  configHooks : List (HookVal C)
  sessionHooks : List (HookVal S)
  messageHooks : List (HookVal M)
  permHooks : List (HookVal P)
  toolHooks : List (HookVal T)
  agentHooks : List (HookVal A)
deriving DecidableEq

/-- `plugin.NewRegistry` (registry.go). -/
def newRegistry {E C S M P T A : Type} : Registry E C S M P T A :=
  ⟨[], [], [], [], [], [], []⟩

section RegistryOps

variable {E C S M P T A : Type}

/-- `Registry.registerHooks` (registry.go): append each hook of the plugin
to the matching pipeline when (and only when) it is not `nil`. -/
def Registry.registerHooks (r : Registry E C S M P T A)
    (hooks : HooksRecord C S M P T A) : Registry E C S M P T A :=
  { r with
    configHooks := match hooks.config with
      | some h => r.configHooks ++ [h]
      | none => r.configHooks
    sessionHooks := match hooks.session with
      | some h => r.sessionHooks ++ [h]
      | none => r.sessionHooks
    messageHooks := match hooks.message with
      | some h => r.messageHooks ++ [h]
      | none => r.messageHooks
    permHooks := match hooks.permission with
      | some h => r.permHooks ++ [h]
      | none => r.permHooks
    toolHooks := match hooks.tool with
      | some h => r.toolHooks ++ [h]
      | none => r.toolHooks
    agentHooks := match hooks.agent with
      | some h => r.agentHooks ++ [h]
      | none => r.agentHooks }

/-- The errors `Registry.LoadPlugin` can produce: a duplicate name, or a
failing `Init` (wrapped with the plugin name in Go). -/
inductive RegErr (E : Type) : Type
  | alreadyLoaded (name : String)
  | initFailed (name : String) (cause : E)
deriving DecidableEq

/-- `Registry.LoadPlugin` (registry.go): reject duplicates by name, run
`Init`, then store the plugin and register its hooks. -/
def Registry.loadPlugin (r : Registry E C S M P T A) (p : PluginM E C S M P T A) :
    Except (RegErr E) (Registry E C S M P T A) :=
  let info := p.info
  if (r.plugins.lookup info.name).isSome then
    .error (.alreadyLoaded info.name)
  else
    match p.initErr with
    | some e => .error (.initFailed info.name e)
    | none =>
        .ok (Registry.registerHooks
          { r with plugins := r.plugins ++ [(info.name, p)] } p.hooks)

/-- `Loader.LoadFromConfig` seen from the registry: load each plugin in
order, logging and skipping the ones that fail. -/
def Registry.loadAll (r : Registry E C S M P T A)
    (ps : List (PluginM E C S M P T A)) : Registry E C S M P T A :=
  ps.foldl (fun acc p =>
    match acc.loadPlugin p with
    | .ok r' => r'
    | .error _ => acc) r

/-- `Registry.GetPlugin` (registry.go). -/
def Registry.getPlugin (r : Registry E C S M P T A) (name : String) :
    Option (PluginM E C S M P T A) :=
  r.plugins.lookup name

/-- `Registry.ListPlugins` (registry.go). -/
def Registry.listPlugins (r : Registry E C S M P T A) : List PluginInfo :=
  r.plugins.map fun q => q.2.info

/-- What `Registry.Shutdown` (registry.go) does as it ranges over the
plugin map: every plugin's `Shutdown` is invoked, and the failures are
accumulated.  The map and the pipelines are not touched — compare
`UnloadPlugin`, which does delete — so the registry comes back unchanged. -/
def Registry.shutdownAll (r : Registry E C S M P T A) :
    Registry E C S M P T A × List String × List (String × E) :=
  let acc := r.plugins.foldl
    (fun (acc : List String × List (String × E)) q =>
      (acc.1 ++ [q.1],
        match q.2.shutdownErr with
        | some e => acc.2 ++ [(q.1, e)]
        | none => acc.2))
    ([], [])
  (r, acc.1, acc.2)

end RegistryOps

/-- How many of the hook slots in a list are non-nil (present) Go interface
values — what `registerHooks` actually counts. -/
def countPresent {β : Type} (hooks : List (Option (HookVal β))) : Nat :=
  (hooks.filter Option.isSome).length

/-- How many of the hook slots in a list hold a custom (non-no-op)
implementation — what the spec's pipeline-length invariant counts. -/
def countCustom {β : Type} (hooks : List (Option (HookVal β))) : Nat :=
  (hooks.filter fun h => match h with | some (.impl _) => true | _ => false).length

/-- Fixture: a plugin built the way the skills plugin is (`NewPlugin` with
`plugin.NewBaseHooks()`): every hook slot holds the contract's no-op. -/
def skillsStylePlugin : PluginM Unit Unit Unit Unit Unit Unit Unit :=
  { info := { name := "crush-skills", version := "1.0.0"
              description := "Implements the Agent Skills Specification"
              author := "Crush Team" }
    initErr := none
    hooks := newBaseHooks
    shutdownErr := none }

/-- Fixture: a plugin named `alpha` with no-op hooks. -/
def witnessPluginAlpha : PluginM Unit Unit Unit Unit Unit Unit Unit :=
  { info := { name := "alpha", version := "1.0.0", description := "a", author := "t" }
    initErr := none
    hooks := newBaseHooks
    shutdownErr := none }

/-- Fixture: a plugin named `beta` with a custom permission hook only. -/
def witnessPluginBeta : PluginM Unit Unit Unit Unit Unit Unit Unit :=
  { info := { name := "beta", version := "1.0.0", description := "b", author := "t" }
    initErr := none
    hooks := { config := none, session := none, message := none
               permission := some (.impl ()), tool := none, agent := none }
    shutdownErr := none }

/-! ## Config hooks and startup wiring (registry.go, app.go) -/

/-- The behaviour of a custom config hook (`OnConfigLoad`): it may mutate
the configuration in place (returned value) and may return an error; in Go
the mutations persist even when the hook also errors. -/
abbrev ConfigHookFn (γ E : Type) := γ → γ × Option E

/-- Run one registered config hook: the contract's `NilConfigHook` leaves
the configuration alone and returns no error. -/
def runConfigHookVal {γ E : Type} : HookVal (ConfigHookFn γ E) → γ → γ × Option E
  | .noopImpl, cfg => (cfg, none)
  | .impl f, cfg => f cfg

/-- The loop of `Registry.TriggerConfigHooks` (registry.go) over the
pipeline snapshot: run the hooks in order on the shared configuration and
stop at (returning) the first hook error. -/
def configPipelineRun {γ E : Type} :
    List (HookVal (ConfigHookFn γ E)) → γ → γ × Option E
  | [], cfg => (cfg, none)
  | h :: hs, cfg =>
    match runConfigHookVal h cfg with
    | (cfg', some e) => (cfg', some e)
    | (cfg', none) => configPipelineRun hs cfg'

/-- `Registry.TriggerConfigHooks` (registry.go). -/
def Registry.triggerConfigHooks {γ E S M P T A : Type}
    (r : Registry E (ConfigHookFn γ E) S M P T A) (cfg : γ) : γ × Option E :=
  configPipelineRun r.configHooks cfg

/-- What `app.New` needs of the parsed configuration: the configuration
value the hooks may mutate, whether an agent is configured, and the outcome
`InitCoderAgent` would have (abstracting the agent subsystem). -/
structure AppConfig (γ E : Type) where
  config : γ
  isConfigured : Bool
  coderAgentInit : Except E Unit

/-- `App.initPlugins` (app.go): load every configured plugin — tolerantly,
a failing load is only warned about — then trigger the config hooks on the
configuration; a config-hook error is what `initPlugins` returns (wrapped
"failed to trigger config hooks" in Go). -/
def initPlugins {γ E S M P T A : Type} (cfg : γ)
    (ps : List (PluginM E (ConfigHookFn γ E) S M P T A)) :
    Registry E (ConfigHookFn γ E) S M P T A × γ × Option E :=
  let r := Registry.loadAll newRegistry ps
  (r, (r.triggerConfigHooks cfg).1, (r.triggerConfigHooks cfg).2)

/-- The observable outcome of `app.New` for the plugin subsystem. -/
structure NewOutcome (γ E S M P T A : Type) where
  registry : Registry E (ConfigHookFn γ E) S M P T A
  configAfterHooks : γ
  pluginWarning : Option E
  result : Except E Unit

/-- `app.New` (app.go): run `initPlugins`; when it fails — in particular
when a config hook errored — the error is only logged
(`slog.Warn("Failed to initialize plugins", …)`) and startup *continues*;
`New` then returns the app, failing only if a configured coder agent fails
to initialize. -/
def appNew {γ E S M P T A : Type} (acfg : AppConfig γ E)
    (ps : List (PluginM E (ConfigHookFn γ E) S M P T A)) : NewOutcome γ E S M P T A :=
  { registry := (initPlugins acfg.config ps).1
    configAfterHooks := (initPlugins acfg.config ps).2.1
    pluginWarning := (initPlugins acfg.config ps).2.2
    result := if acfg.isConfigured then acfg.coderAgentInit else .ok () }

/-- Fixture: a plugin whose config hook always errors. -/
def failingConfigHookPlugin :
    PluginM String (ConfigHookFn Unit String) Unit Unit Unit Unit Unit :=
  { info := { name := "failcfg", version := "1.0.0", description := "", author := "" }
    initErr := none
    hooks := { config := some (.impl fun c => (c, some "config hook failed"))
               session := none, message := none, permission := none
               tool := none, agent := none }
    shutdownErr := none }

/-- Fixture: an unconfigured application configuration. -/
def plainAppConfig : AppConfig Unit String :=
  { config := (), isConfigured := false, coderAgentInit := .ok () }

/-! ## The loader's entry symbol (loader.go) -/

/-- A value exported by an opened Go plugin artifact: either a value that
implements the `plugin.Plugin` interface, or some other value (the type
assertion in `loadGoPlugin` fails on it). -/
inductive GoSymbol (E C S M P T A : Type) : Type
  | pluginValue (p : PluginM E C S M P T A)
  | otherValue
deriving DecidableEq

/-- A successfully opened plugin artifact: its exported symbol table. -/
structure GoArtifact (E C S M P T A : Type) where
  symbols : List (String × GoSymbol E C S M P T A)
deriving DecidableEq

/-- The classified failures of `loadGoPlugin` after a successful `Open`:
"plugin does not export 'Plugin' symbol", "Plugin symbol does not implement
plugin.Plugin interface", or a wrapped registry failure. -/
inductive LoadError (E : Type) : Type
  | missingEntrySymbol
  | contractMismatch
  | registryFailed (e : RegErr E)
deriving DecidableEq

/-- `Loader.loadGoPlugin` (loader.go) after `plugin.Open` succeeded: look
up the exported symbol named exactly `"Plugin"`; if absent fail with the
missing-entry-symbol error; if present but not a `plugin.Plugin`, fail with
the contract-mismatch error; otherwise hand the value to
`Registry.LoadPlugin`. -/
def loadGoPlugin {E C S M P T A : Type} (r : Registry E C S M P T A)
    (artifact : GoArtifact E C S M P T A) :
    Except (LoadError E) (Registry E C S M P T A) :=
  match artifact.symbols.lookup "Plugin" with
  | none => .error .missingEntrySymbol
  | some .otherValue => .error .contractMismatch
  | some (.pluginValue p) =>
      match r.loadPlugin p with
      | .error e => .error (.registryFailed e)
      | .ok r' => .ok r'

/-- Fixture: an artifact exporting a conforming plugin value under the
symbol name `Extension` — and nothing under `Plugin`. -/
def extensionOnlyArtifact : GoArtifact Unit Unit Unit Unit Unit Unit Unit :=
  { symbols := [("Extension", .pluginValue
      { info := { name := "ext", version := "1.0.0", description := "", author := "" }
        initErr := none, hooks := newBaseHooks, shutdownErr := none })] }

/-! ## Go string and path primitives used by the skills plugin

Strings are modelled as `List Char` (`GoStr`).  The skills code only ever
applies byte-indexed Go functions (`strings.LastIndex`, slicing) to ASCII
delimiters, where byte and rune indices coincide; `strings.ToLower` and
`strings.TrimSpace` are modelled on their ASCII behaviour, which is all the
sanitized inputs they receive here can exercise. -/

/-- A Go string. -/
abbrev GoStr := List Char

/-- Split `s` at the first occurrence of `sep`: the part before and the
part after (the separator removed); `none` when `sep` does not occur. -/
def firstSplit (sep : GoStr) : GoStr → Option (GoStr × GoStr)
  | [] => if sep.isEmpty then some ([], []) else none
  | c :: rest =>
    if sep.isPrefixOf (c :: rest) then some ([], (c :: rest).drop sep.length)
    else
      match firstSplit sep rest with
      | none => none
      | some (pre, post) => some (c :: pre, post)

/-- Go `strings.SplitN(s, sep, n)` for `n ≥ 0` and non-empty `sep`: at most
`n` parts, the last holding the unsplit remainder. -/
def goSplitN (sep : GoStr) : GoStr → Nat → List GoStr
  | _, 0 => []
  | s, 1 => [s]
  | s, Nat.succ (Nat.succ n) =>
    match firstSplit sep s with
    | none => [s]
    | some (pre, post) => pre :: goSplitN sep post (Nat.succ n)

/-- Go `strings.LastIndex(s, sub)`: the largest index at which `sub`
occurs in `s` (`none` for Go's `-1`). -/
def lastIndexOfSub (s sub : GoStr) : Option Nat :=
  (List.range (s.length + 1)).reverse.find? fun i => sub.isPrefixOf (s.drop i)

/-- Go `strings.TrimPrefix`. -/
def trimPrefixList (s pre : GoStr) : GoStr :=
  if pre.isPrefixOf s then s.drop pre.length else s

/-- Go `strings.TrimSuffix`. -/
def trimSuffixList (s suf : GoStr) : GoStr :=
  if suf.isSuffixOf s then s.take (s.length - suf.length) else s

/-- A character of the regexp class `[a-zA-Z0-9_]` (ASCII). -/
def isWordChar (c : Char) : Bool :=
  if (65 ≤ c.toNat ∧ c.toNat ≤ 90) ∨ (97 ≤ c.toNat ∧ c.toNat ≤ 122)
      ∨ (48 ≤ c.toNat ∧ c.toNat ≤ 57) ∨ c.toNat = 95 then true else false

/-- A character of the class `[a-z0-9_]` (ASCII), as in the generated
tool-name pattern. -/
def isLowerToolChar (c : Char) : Bool :=
  if (97 ≤ c.toNat ∧ c.toNat ≤ 122) ∨ (48 ≤ c.toNat ∧ c.toNat ≤ 57)
      ∨ c.toNat = 95 then true else false

/-- One step of `regexp [^a-zA-Z0-9_] → "_"`. -/
def sanitizeChar (c : Char) : Char :=
  if isWordChar c then c else '_'

/-- One step of `strings.ReplaceAll(s, "/", "_")`. -/
def slashToUnderscore (c : Char) : Char :=
  if c = '/' then '_' else c

/-- ASCII lower-casing of one character (what `strings.ToLower` does on the
ASCII-only strings it receives in `generateToolName`). -/
def asciiLowerChar (c : Char) : Char :=
  if 65 ≤ c.toNat ∧ c.toNat ≤ 90 then Char.ofNat (c.toNat + 32) else c

/-- `generateToolName` (skills.go): trim a leading `./` and a trailing `/`,
turn path separators into `_`, replace every character outside
`[a-zA-Z0-9_]` by `_`, lower-case, and prepend `skills_`. -/
def generateToolName (skillPath : GoStr) : GoStr :=
  let cleaned := trimPrefixList skillPath ('.' :: '/' :: [])
  let cleaned := trimSuffixList cleaned ['/']
  let toolName := cleaned.map slashToUnderscore
  let toolName := toolName.map sanitizeChar
  let toolName := toolName.map asciiLowerChar
  "skills_".data ++ toolName

/-- The regexp `^skills_[a-z0-9_]+$` of the spec's tool-name invariant. -/
def toolNamePattern (s : GoStr) : Bool :=
  "skills_".data.isPrefixOf s && !(s.drop 7).isEmpty
    && (s.drop 7).all isLowerToolChar

/-- Split a path into its `/`-separated components
(Go `strings.Split(s, "/")`). -/
def splitSlash : GoStr → List GoStr
  | [] => [[]]
  | c :: cs =>
    if c = '/' then [] :: splitSlash cs
    else
      match splitSlash cs with
      | [] => [[c]]
      | p :: ps => (c :: p) :: ps

/-- The element-processing loop of Go `path/filepath.Clean` (Unix): skip
empty and `.` components; on `..` pop the last kept component, except that
a rooted path drops an unmatched `..` and an unrooted one keeps it.  The
stack is kept reversed (most recent first). -/
def cleanStack (rooted : Bool) : List GoStr → List GoStr → List GoStr
  | stack, [] => stack
  | stack, c :: cs =>
    if c = [] ∨ c = ['.'] then cleanStack rooted stack cs
    else if c = ['.', '.'] then
      match stack with
      | [] =>
          if rooted then cleanStack rooted [] cs
          else cleanStack rooted [['.', '.']] cs
      | top :: rest =>
          if top = ['.', '.'] then cleanStack rooted (['.', '.'] :: top :: rest) cs
          else cleanStack rooted rest cs
    else cleanStack rooted (c :: stack) cs

/-- Go `strings.Join(elems, "/")`. -/
def joinSlash : List GoStr → GoStr
  | [] => []
  | [p] => p
  | p :: q :: ps => p ++ '/' :: joinSlash (q :: ps)

/-- Whether a path is rooted (starts with `/`). -/
def isRooted : GoStr → Bool
  | '/' :: _ => true
  | _ => false

/-- Go `path/filepath.Clean` on Unix. -/
def goClean (p : GoStr) : GoStr :=
  if p = [] then ['.']
  else
    let rooted := isRooted p
    let stack := (cleanStack rooted [] (splitSlash p)).reverse
    let body := joinSlash stack
    if rooted then (if body = [] then ['/'] else '/' :: body)
    else (if body = [] then ['.'] else body)

/-- The index of the last `/` in a path. -/
def lastSlashIdx (s : GoStr) : Option Nat :=
  (List.range s.length).reverse.find? fun i => (s.drop i).head? == some '/'

/-- Go `path/filepath.Dir` on Unix: everything up to and including the
last separator, cleaned; `.` when there is no separator. -/
def goDir (path : GoStr) : GoStr :=
  match lastSlashIdx path with
  | none => ['.']
  | some j => goClean (path.take (j + 1))

/-- Drop the trailing separators of a path. -/
def dropTrailingSlashes (s : GoStr) : GoStr :=
  (s.reverse.dropWhile fun c => c == '/').reverse

/-- Go `path/filepath.Base` on Unix. -/
def goBase (path : GoStr) : GoStr :=
  if path = [] then ['.']
  else
    let q := dropTrailingSlashes path
    if q = [] then ['/']
    else
      let r := match lastSlashIdx q with
        | none => q
        | some j => q.drop (j + 1)
      if r = [] then ['/'] else r

/-- Go `path/filepath.Join` on Unix: join the elements from the first
non-empty one with `/` and clean the result; all-empty gives `""`. -/
def goJoin (elems : List GoStr) : GoStr :=
  let es := elems.dropWhile fun e => e.isEmpty
  if es.isEmpty then [] else goClean (joinSlash es)

/-- An ASCII whitespace character (what `strings.TrimSpace` strips from the
ASCII-only skill bodies we model). -/
def isSpaceChar (c : Char) : Bool :=
  if c.toNat = 32 ∨ (9 ≤ c.toNat ∧ c.toNat ≤ 13) then true else false

/-- Go `strings.TrimSpace` (ASCII). -/
def trimSpaceList (s : GoStr) : GoStr :=
  ((s.dropWhile isSpaceChar).reverse.dropWhile isSpaceChar).reverse

/-! ## The skills plugin (skills.go): parsing, discovery, tool names -/

/-- `SkillFrontmatter` (skills.go): the fields of the YAML frontmatter. -/
structure SkillFrontmatter where
  name : GoStr
  description : GoStr
  license : GoStr
  allowedTools : List GoStr
  metadata : List (GoStr × GoStr)
deriving DecidableEq

/-- `Skill` (skills.go). -/
structure Skill where
  name : GoStr
  fullPath : GoStr
  toolName : GoStr
  description : GoStr
  allowedTools : List GoStr
  metadata : List (GoStr × GoStr)
  license : GoStr
  content : GoStr
  path : GoStr
deriving DecidableEq

/-- The distinct failures of `parseSkillMD` (skills.go), in the order the
code checks them (the read error of `os.ReadFile` is outside the model:
the file's text is an input). -/
inductive SkillParseError : Type
  | missingFrontmatter
  | frontmatterParseFailed
  | nameRequired
  | invalidNameFormat
  | descriptionTooShort
  | nameDirMismatch
deriving DecidableEq

/-- `validateSkillName` (skills.go): the name matches `^[a-z0-9-]+$`. -/
def validateSkillName (name : GoStr) : Bool :=
  !name.isEmpty && name.all fun c =>
    if (97 ≤ c.toNat ∧ c.toNat ≤ 122) ∨ (48 ≤ c.toNat ∧ c.toNat ≤ 57)
        ∨ c.toNat = 45 then true else false

/-- The relative-path computation of `parseSkillMD` (skills.go, lines
1155-1163): everything after the last occurrence of the substring
`"/skills/"` in the skill directory, falling back to the directory's
basename when that substring does not occur. -/
def codeRelPath (skillDir : GoStr) : GoStr :=
  match lastIndexOfSub skillDir "/skills/".data with
  | some i => skillDir.drop (i + 8)
  | none => goBase skillDir

/-- `parseSkillMD` (skills.go) on a file's text.  `yamlParse` abstracts
`yaml.Unmarshal` (gopkg.in/yaml.v3, an external library); `os.ReadFile` is
abstracted by passing the contents.  The description length is Go's byte
length, which on the ASCII frontmatter this models equals the character
count. -/
def parseSkillMD (yamlParse : GoStr → Except Unit SkillFrontmatter)
    (skillPath content : GoStr) : Except SkillParseError Skill :=
  match goSplitN "---".data content 3 with
  | _ :: p1 :: p2 :: _ =>
    match yamlParse p1 with
    | .error _ => .error .frontmatterParseFailed
    | .ok fm =>
      if fm.name = [] then .error .nameRequired
      else if !validateSkillName fm.name then .error .invalidNameFormat
      else if fm.description.length < 20 then .error .descriptionTooShort
      else
        let skillDir := goDir skillPath
        let skillDirName := goBase skillDir
        if fm.name ≠ skillDirName then .error .nameDirMismatch
        else
          .ok { name := fm.name
                fullPath := skillDir
                toolName := generateToolName (codeRelPath skillDir)
                description := fm.description
                allowedTools := fm.allowedTools
                metadata := fm.metadata
                license := fm.license
                content := trimSpaceList p2
                path := skillPath }
  | _ => .error .missingFrontmatter

/-- A `SKILL.md` file the discovery walk encounters, in walk order:
its path and its text. -/
structure WalkedFile where
  path : GoStr
  content : GoStr
deriving DecidableEq

/-- The warnings `discoverSkills` (skills.go) writes to stderr. -/
inductive SkillWarning : Type
  | parseFailed (path : GoStr) (err : SkillParseError)
  | duplicateToolName (toolName oldPath newPath : GoStr)
deriving DecidableEq

/-- The loop state of `discoverSkills` (skills.go): the accumulated skills,
the `seenToolNames` map (tool name → path of the file that set it), and
the warnings so far. -/
structure DiscoverState where
  allSkills : List Skill
  seenToolNames : List (GoStr × GoStr)
  warnings : List SkillWarning
deriving DecidableEq

/-- One iteration of the `WalkDir` callback of `discoverSkills` for a
`SKILL.md` file: a parse failure warns and skips; a duplicate tool name
removes the earlier skill (warning) and appends the new one; otherwise the
skill is appended. -/
def discoverStep (yamlParse : GoStr → Except Unit SkillFrontmatter)
    (st : DiscoverState) (f : WalkedFile) : DiscoverState :=
  match parseSkillMD yamlParse f.path f.content with
  | .error e => { st with warnings := st.warnings ++ [.parseFailed f.path e] }
  | .ok skill =>
    match st.seenToolNames.lookup skill.toolName with
    | some oldPath =>
        { allSkills := (st.allSkills.eraseP fun s => s.toolName == skill.toolName)
            ++ [skill]
          seenToolNames := (skill.toolName, f.path) :: st.seenToolNames
          warnings := st.warnings
            ++ [.duplicateToolName skill.toolName oldPath f.path] }
    | none =>
        { allSkills := st.allSkills ++ [skill]
          seenToolNames := (skill.toolName, f.path) :: st.seenToolNames
          warnings := st.warnings }

/-- `discoverSkills` (skills.go) over the `SKILL.md` files the walk finds,
in walk order (base directories in priority order, recursive descent
within each; missing directories contribute no files).  The function's Go
error result is always `nil`: per-file problems only warn. -/
def discoverSkills (yamlParse : GoStr → Except Unit SkillFrontmatter)
    (files : List WalkedFile) : List Skill × List SkillWarning :=
  let st := files.foldl (discoverStep yamlParse) ⟨[], [], []⟩
  (st.allSkills, st.warnings)

/-- The OS environment `getSkillBasePaths` (skills.go) consults:
`os.Getenv("XDG_CONFIG_HOME")` (empty when unset) and `os.UserHomeDir()`
(`none` models its error). -/
structure OSEnv where
  xdgConfigHome : GoStr
  userHomeDir : Option GoStr
deriving DecidableEq

/-- `getSkillBasePaths` (skills.go): XDG config (falling back to
`$HOME/.config`), then `$HOME/.crush/skills`, then the project-local
`<workingDir>/.crush/skills`, lowest priority first. -/
def getSkillBasePaths (env : OSEnv) (workingDir : GoStr) : List GoStr :=
  let configDir :=
    if !env.xdgConfigHome.isEmpty then env.xdgConfigHome
    else
      match env.userHomeDir with
      | some h => goJoin [h, ".config".data]
      | none => []
  (if !configDir.isEmpty then [goJoin [configDir, "crush".data, "skills".data]]
   else [])
  ++ (match env.userHomeDir with
      | some h => [goJoin [h, ".crush".data, "skills".data]]
      | none => [])
  ++ [goJoin [workingDir, ".crush".data, "skills".data]]

/-- Modelled from the spec (for the comparison in C7, not from the code):
"take the skill directory's path relative to the nearest ancestor directory
named `skills` (fallback: just the directory basename)".  The nearest such
ancestor is the last component equal to `skills` strictly before the final
component. -/
def specRelPath (skillDir : GoStr) : GoStr :=
  let comps := splitSlash skillDir
  match (List.range comps.length).reverse.find?
      (fun i => if comps[i]? = some "skills".data ∧ i + 1 < comps.length
        then true else false) with
  | some i => joinSlash (comps.drop (i + 1))
  | none => goBase skillDir

/-- Modelled from the spec: the tool name the spec's §4.5 algorithm
assigns to a skill directory. -/
def specToolName (skillDir : GoStr) : GoStr :=
  generateToolName (specRelPath skillDir)

/-- Fixture: a YAML parser returning the `analyzer` frontmatter. -/
def analyzerYaml : GoStr → Except Unit SkillFrontmatter := fun _ =>
  .ok { name := "analyzer".data
        description := "analyzes things in great detail".data
        license := [], allowedTools := [], metadata := [] }

/-- Fixture: a relative skill path whose first component is `skills`. -/
def analyzerPath : GoStr := "skills/tools/analyzer/SKILL.md".data

/-- Fixture: a well-formed `SKILL.md` text for the `analyzer` skill. -/
def analyzerContent : GoStr := "---\nname: analyzer\n---\nUse this skill.".data

/-- Fixture: the skill `parseSkillMD` produces from the `analyzer`
fixtures. -/
def analyzerSkill : Skill :=
  { name := "analyzer".data
    fullPath := "skills/tools/analyzer".data
    toolName := "skills_analyzer".data
    description := "analyzes things in great detail".data
    allowedTools := [], metadata := [], license := []
    content := "Use this skill.".data
    path := analyzerPath }

/-- The skills-and-seen components of one `discoverSkills` iteration,
without the warnings (which the skill/seen transition never reads). -/
def discoverCore (yamlParse : GoStr → Except Unit SkillFrontmatter)
    (core : List Skill × List (GoStr × GoStr)) (f : WalkedFile) :
    List Skill × List (GoStr × GoStr) :=
  match parseSkillMD yamlParse f.path f.content with
  | .error _ => core
  | .ok skill =>
    match core.2.lookup skill.toolName with
    | some _ =>
        ((core.1.eraseP fun s => s.toolName == skill.toolName) ++ [skill],
          (skill.toolName, f.path) :: core.2)
    | none => (core.1 ++ [skill], (skill.toolName, f.path) :: core.2)

/-- The skills of the files that parse, in walk order. -/
def validSkills (yamlParse : GoStr → Except Unit SkillFrontmatter)
    (files : List WalkedFile) : List Skill :=
  files.filterMap fun f => (parseSkillMD yamlParse f.path f.content).toOption

/-- The (generated tool name, file path) pairs of the files that parse, in
walk order — the successive assignments `seenToolNames[toolName] = path`
the discovery loop performs. -/
def validToolPaths (yamlParse : GoStr → Except Unit SkillFrontmatter)
    (files : List WalkedFile) : List (GoStr × GoStr) :=
  files.filterMap fun f =>
    (parseSkillMD yamlParse f.path f.content).toOption.map fun s => (s.toolName, f.path)

/-- Fixture: a YAML parser returning the `foo` frontmatter. -/
def fooYaml : GoStr → Except Unit SkillFrontmatter := fun _ =>
  .ok { name := "foo".data
        description := "a very helpful skill for testing".data
        license := [], allowedTools := [], metadata := [] }

/-- Fixture: a well-formed `SKILL.md` text for the `foo` skill. -/
def fooContent : GoStr := "---\nname: foo\n---\nBody of foo skill.".data

/-- Fixture: the `foo` skill under the user configuration directory. -/
def fooFile1 : WalkedFile :=
  { path := "/home/u/.config/crush/skills/foo/SKILL.md".data, content := fooContent }

/-- Fixture: the `foo` skill under the project-local directory. -/
def fooFile2 : WalkedFile :=
  { path := "/proj/.crush/skills/foo/SKILL.md".data, content := fooContent }

/-- Fixture: a `SKILL.md` with no frontmatter. -/
def badFile : WalkedFile :=
  { path := "/proj/.crush/skills/bar/SKILL.md".data
    content := "no frontmatter here".data }

/-- Fixture: the skill produced from the project-local `foo` file. -/
def fooSkill2 : Skill :=
  { name := "foo".data
    fullPath := "/proj/.crush/skills/foo".data
    toolName := "skills_foo".data
    description := "a very helpful skill for testing".data
    allowedTools := [], metadata := [], license := []
    content := "Body of foo skill.".data
    path := "/proj/.crush/skills/foo/SKILL.md".data }

/-! ## Lemmas and claim theorems -/

lemma lastSome_cons_none {α : Type} (ms : List (Option α)) :
    lastSome (none :: ms) = lastSome ms := by
  cases h : lastSome ms <;> simp [lastSome, h]

lemma lastSome_cons_some {α : Type} (x : α) (ms : List (Option α)) :
    lastSome (some x :: ms) = some ((lastSome ms).getD x) := by
  cases h : lastSome ms <;> simp [lastSome, h]

/-- C1: in a permission trigger whose pipeline yields decisions
`[d1, …, dn]`, the first non-None decision is returned and the hooks after
it are not invoked; if every hook declines the trigger returns `none` with
no error; and a hook error occurring before any decision is returned
immediately, without invoking the hooks after it. -/
theorem trigger_permission_first_decision_wins (E : Type) :
    (∀ (pre post : List (PermOutcome E)) (d : Bool),
        (∀ x ∈ pre, x = .ok none) →
        triggerPermissionRequest (pre ++ .ok (some d) :: post) = .ok (some d)
          ∧ permInvoked (pre ++ .ok (some d) :: post) = pre.length + 1)
    ∧ (∀ hooks : List (PermOutcome E),
        (∀ x ∈ hooks, x = .ok none) →
        triggerPermissionRequest hooks = .ok none ∧ permInvoked hooks = hooks.length)
    ∧ (∀ (pre post : List (PermOutcome E)) (e : E),
        (∀ x ∈ pre, x = .ok none) →
        triggerPermissionRequest (pre ++ .error e :: post) = .error e
          ∧ permInvoked (pre ++ .error e :: post) = pre.length + 1) := by
  refine ⟨?_, ?_, ?_⟩
  · intro pre post d hpre
    induction pre with
    | nil => simp [triggerPermissionRequest, permInvoked]
    | cons x xs ih =>
        have hx : x = .ok none := hpre x (by simp)
        subst hx
        have h := ih fun y hy => hpre y (by simp [hy])
        simpa [triggerPermissionRequest, permInvoked] using h
  · intro hooks hall
    induction hooks with
    | nil => simp [triggerPermissionRequest, permInvoked]
    | cons x xs ih =>
        have hx : x = .ok none := hall x (by simp)
        subst hx
        have h := ih fun y hy => hall y (by simp [hy])
        simpa [triggerPermissionRequest, permInvoked] using h
  · intro pre post e hpre
    induction pre with
    | nil => simp [triggerPermissionRequest, permInvoked]
    | cons x xs ih =>
        have hx : x = .ok none := hpre x (by simp)
        subst hx
        have h := ih fun y hy => hpre y (by simp [hy])
        simpa [triggerPermissionRequest, permInvoked] using h

/-- Witness for C1: a concrete pipeline `[None, Allow, error]` returns
`Allow` having invoked exactly the first two hooks. -/
theorem trigger_permission_first_decision_wins_witness :
    triggerPermissionRequest
        ([.ok none, .ok (some true), .error "boom"] : List (PermOutcome String))
        = .ok (some true)
      ∧ permInvoked
        ([.ok none, .ok (some true), .error "boom"] : List (PermOutcome String)) = 2 := by
  have h := (trigger_permission_first_decision_wins String).1
    [.ok none] [.error "boom"] true (by simp)
  simpa using h

lemma lastSome_nil {α : Type} : lastSome ([] : List (Option α)) = none := rfl

lemma traceMods_nil {β E : Type} : traceMods ([] : List (β × Except E (Option β))) = [] := rfl

lemma traceMods_cons {β E : Type} (p : β × Except E (Option β))
    (tr : List (β × Except E (Option β))) :
    traceMods (p :: tr)
      = (match p.2 with | .ok m => m | .error _ => none) :: traceMods tr := rfl

section BeforeUnfold

variable {α E : Type} (h : ToolBeforeHook α E) (hs : List (ToolBeforeHook α E))
variable (input : ToolExecuteInput α)

lemma toolBeforeTrace_cons_err {e : E} (hh : h input = .error e) :
    toolBeforeTrace (h :: hs) input = [(input.arguments, .error e)] := by
  simp [toolBeforeTrace, hh]

lemma toolBeforeTrace_cons_none (hh : h input = .ok none) :
    toolBeforeTrace (h :: hs) input
      = (input.arguments, .ok none) :: toolBeforeTrace hs input := by
  simp [toolBeforeTrace, hh]

lemma toolBeforeTrace_cons_some {m : α} (hh : h input = .ok (some m)) :
    toolBeforeTrace (h :: hs) input
      = (input.arguments, .ok (some m))
          :: toolBeforeTrace hs { input with arguments := m } := by
  simp [toolBeforeTrace, hh]

lemma triggerBefore_cons_err {e : E} (hh : h input = .error e) :
    triggerToolExecuteBefore (h :: hs) input = .error e := by
  simp [triggerToolExecuteBefore, hh]

lemma triggerBefore_cons_none (hh : h input = .ok none) :
    triggerToolExecuteBefore (h :: hs) input = triggerToolExecuteBefore hs input := by
  simp [triggerToolExecuteBefore, hh]

lemma triggerBefore_cons_some {m : α} (hh : h input = .ok (some m)) :
    triggerToolExecuteBefore (h :: hs) input
      = triggerToolExecuteBefore hs { input with arguments := m } := by
  simp [triggerToolExecuteBefore, hh]

end BeforeUnfold

/-- C2: in a tool execute-before trigger, each invoked hook receives as
arguments the last non-nil modification returned by an earlier hook (the
original arguments if none); when no hook errors the trigger returns the
last non-nil modification (the original arguments if all hooks returned
nil) after invoking every hook; and a hook error is returned at once, with
no arguments, the erroring hook being the last one invoked. -/
theorem trigger_tool_before_threads_args (α E : Type) :
    ∀ (hooks : List (ToolBeforeHook α E)) (input : ToolExecuteInput α),
      (∀ (i : Nat) (p : α × Except E (Option α)),
          (toolBeforeTrace hooks input)[i]? = some p →
          p.1 = (lastSome ((traceMods (toolBeforeTrace hooks input)).take i)).getD
                  input.arguments)
      ∧ ((∀ p ∈ toolBeforeTrace hooks input, ∀ e : E, p.2 ≠ .error e) →
          triggerToolExecuteBefore hooks input
              = .ok ((lastSome (traceMods (toolBeforeTrace hooks input))).getD
                  input.arguments)
            ∧ (toolBeforeTrace hooks input).length = hooks.length)
      ∧ (∀ (i : Nat) (p : α × Except E (Option α)) (e : E),
          (toolBeforeTrace hooks input)[i]? = some p → p.2 = .error e →
          triggerToolExecuteBefore hooks input = .error e
            ∧ i + 1 = (toolBeforeTrace hooks input).length) := by
  intro hooks
  induction hooks with
  | nil =>
      intro input
      refine ⟨?_, ?_, ?_⟩ <;>
        simp [toolBeforeTrace, triggerToolExecuteBefore, traceMods, lastSome]
  | cons h hs ih =>
      intro input
      rcases hh : h input with e | m
      · -- the head hook errors
        refine ⟨?_, ?_, ?_⟩
        · intro i p hp
          rw [toolBeforeTrace_cons_err h hs input hh] at hp ⊢
          match i with
          | 0 =>
              obtain rfl : (input.arguments, (.error e : Except E (Option α))) = p := by
                simpa using hp
              simp [lastSome_nil]
          | j + 1 => simp at hp
        · intro hne
          exact absurd rfl
            (hne (input.arguments, .error e)
              (by rw [toolBeforeTrace_cons_err h hs input hh]; simp) e)
        · intro i p e' hp he'
          rw [toolBeforeTrace_cons_err h hs input hh] at hp ⊢
          match i with
          | 0 =>
              obtain rfl : (input.arguments, (.error e : Except E (Option α))) = p := by
                simpa using hp
              obtain rfl : e = e' := by simpa using he'
              exact ⟨triggerBefore_cons_err h hs input hh, by simp⟩
          | j + 1 => simp at hp
      · rcases m with _ | m
        · -- the head hook returns no modification
          obtain ⟨ih1, ih2, ih3⟩ := ih input
          refine ⟨?_, ?_, ?_⟩
          · intro i p hp
            rw [toolBeforeTrace_cons_none h hs input hh] at hp ⊢
            match i with
            | 0 =>
                obtain rfl : (input.arguments, (.ok none : Except E (Option α))) = p := by
                  simpa using hp
                simp [lastSome_nil]
            | j + 1 =>
                have hp' : (toolBeforeTrace hs input)[j]? = some p := by simpa using hp
                have hrec := ih1 j p hp'
                simpa [traceMods_cons, lastSome_cons_none] using hrec
          · intro hne
            rw [toolBeforeTrace_cons_none h hs input hh] at hne ⊢
            have hne' : ∀ p ∈ toolBeforeTrace hs input, ∀ e : E, p.2 ≠ .error e :=
              fun p hp e => hne p (by simp [hp]) e
            obtain ⟨h1, h2⟩ := ih2 hne'
            refine ⟨?_, by simp [h2]⟩
            rw [triggerBefore_cons_none h hs input hh, h1]
            simp [traceMods_cons, lastSome_cons_none]
          · intro i p e' hp he'
            rw [toolBeforeTrace_cons_none h hs input hh] at hp ⊢
            match i with
            | 0 =>
                obtain rfl : (input.arguments, (.ok none : Except E (Option α))) = p := by
                  simpa using hp
                simp at he'
            | j + 1 =>
                have hp' : (toolBeforeTrace hs input)[j]? = some p := by simpa using hp
                obtain ⟨h1, h2⟩ := ih3 j p e' hp' he'
                exact ⟨by rw [triggerBefore_cons_none h hs input hh]; exact h1,
                  by simp; omega⟩
        · -- the head hook modifies the arguments to `m`
          obtain ⟨ih1, ih2, ih3⟩ := ih { input with arguments := m }
          refine ⟨?_, ?_, ?_⟩
          · intro i p hp
            rw [toolBeforeTrace_cons_some h hs input hh] at hp ⊢
            match i with
            | 0 =>
                obtain rfl : (input.arguments, (.ok (some m) : Except E (Option α))) = p := by
                  simpa using hp
                simp [lastSome_nil]
            | j + 1 =>
                have hp' : (toolBeforeTrace hs { input with arguments := m })[j]? = some p := by
                  simpa using hp
                have hrec := ih1 j p hp'
                simp only [traceMods_cons, List.take_succ_cons, lastSome_cons_some]
                rw [hrec]
                simp
          · intro hne
            rw [toolBeforeTrace_cons_some h hs input hh] at hne ⊢
            have hne' : ∀ p ∈ toolBeforeTrace hs { input with arguments := m },
                ∀ e : E, p.2 ≠ .error e :=
              fun p hp e => hne p (by simp [hp]) e
            obtain ⟨h1, h2⟩ := ih2 hne'
            refine ⟨?_, by simp [h2]⟩
            rw [triggerBefore_cons_some h hs input hh, h1]
            simp [traceMods_cons, lastSome_cons_some]
          · intro i p e' hp he'
            rw [toolBeforeTrace_cons_some h hs input hh] at hp ⊢
            match i with
            | 0 =>
                obtain rfl : (input.arguments, (.ok (some m) : Except E (Option α))) = p := by
                  simpa using hp
                simp at he'
            | j + 1 =>
                have hp' : (toolBeforeTrace hs { input with arguments := m })[j]? = some p := by
                  simpa using hp
                obtain ⟨h1, h2⟩ := ih3 j p e' hp' he'
                exact ⟨by rw [triggerBefore_cons_some h hs input hh]; exact h1,
                  by simp; omega⟩

/-- Witness for C2: with a modifying hook followed by a failing hook, the
second hook received the first hook's modification and its error aborted
the pipeline. -/
theorem trigger_tool_before_threads_args_witness :
    triggerToolExecuteBefore [beforeHookAdd, beforeHookFail] sampleBeforeInput
        = .error "boom"
      ∧ (toolBeforeTrace [beforeHookAdd, beforeHookFail] sampleBeforeInput).length = 2 := by
  have h := (trigger_tool_before_threads_args Nat String
      [beforeHookAdd, beforeHookFail] sampleBeforeInput).2.2 1 (1, .error "boom") "boom"
    (by rfl) rfl
  exact ⟨h.1, by rw [← h.2]⟩

section AfterUnfold

variable {α ρ E : Type} (h : ToolAfterHook α ρ E) (hs : List (ToolAfterHook α ρ E))
variable (input : ToolExecuteInput α) (result : ρ)

lemma toolAfterTrace_cons_err {e : E} (hh : h input result = .error e) :
    toolAfterTrace (h :: hs) input result = [(result, .error e)] := by
  simp [toolAfterTrace, hh]

lemma toolAfterTrace_cons_none (hh : h input result = .ok none) :
    toolAfterTrace (h :: hs) input result
      = (result, .ok none) :: toolAfterTrace hs input result := by
  simp [toolAfterTrace, hh]

lemma toolAfterTrace_cons_some {m : ρ} (hh : h input result = .ok (some m)) :
    toolAfterTrace (h :: hs) input result
      = (result, .ok (some m)) :: toolAfterTrace hs input m := by
  simp [toolAfterTrace, hh]

lemma triggerAfter_cons_err {e : E} (hh : h input result = .error e) :
    triggerToolExecuteAfter (h :: hs) input result = (result, some e) := by
  simp [triggerToolExecuteAfter, hh]

lemma triggerAfter_cons_none (hh : h input result = .ok none) :
    triggerToolExecuteAfter (h :: hs) input result
      = triggerToolExecuteAfter hs input result := by
  simp [triggerToolExecuteAfter, hh]

lemma triggerAfter_cons_some {m : ρ} (hh : h input result = .ok (some m)) :
    triggerToolExecuteAfter (h :: hs) input result
      = triggerToolExecuteAfter hs input m := by
  simp [triggerToolExecuteAfter, hh]

end AfterUnfold

/-- Counterexample for C5: the caller supplies result `0`; the first hook
replaces it by `5` and the second hook errors.  `TriggerToolExecuteAfter`
returns the *modified* result `5` with the error — not the caller's
original result `0` as the claim states. -/
theorem trigger_tool_after_error_returns_current_result :
    triggerToolExecuteAfter [afterHookModify, afterHookFail] sampleAfterInput 0
        = (5, some "hook failure")
      ∧ (5 : Nat) ≠ 0 :=
  ⟨rfl, by decide⟩

/-- C5 amended: in a tool execute-after trigger, each invoked hook receives
the result as last modified by the earlier hooks (the caller's result if
none); when no hook errors the trigger returns the last non-nil modified
result (the caller's result if all hooks returned nil) with no error, after
invoking every hook; and when a hook errors, the trigger stops and reports
the error together with the result *as it stood at the failing hook* — the
caller's original result only when no earlier hook had modified it. -/
theorem trigger_tool_after_threads_result (α ρ E : Type) :
    ∀ (hooks : List (ToolAfterHook α ρ E)) (input : ToolExecuteInput α) (result : ρ),
      (∀ (i : Nat) (p : ρ × Except E (Option ρ)),
          (toolAfterTrace hooks input result)[i]? = some p →
          p.1 = (lastSome ((traceMods (toolAfterTrace hooks input result)).take i)).getD
                  result)
      ∧ ((∀ p ∈ toolAfterTrace hooks input result, ∀ e : E, p.2 ≠ .error e) →
          triggerToolExecuteAfter hooks input result
              = ((lastSome (traceMods (toolAfterTrace hooks input result))).getD result,
                  none)
            ∧ (toolAfterTrace hooks input result).length = hooks.length)
      ∧ (∀ (i : Nat) (p : ρ × Except E (Option ρ)) (e : E),
          (toolAfterTrace hooks input result)[i]? = some p → p.2 = .error e →
          triggerToolExecuteAfter hooks input result = (p.1, some e)
            ∧ i + 1 = (toolAfterTrace hooks input result).length) := by
  intro hooks
  induction hooks with
  | nil =>
      intro input result
      refine ⟨?_, ?_, ?_⟩ <;>
        simp [toolAfterTrace, triggerToolExecuteAfter, traceMods, lastSome]
  | cons h hs ih =>
      intro input result
      rcases hh : h input result with e | m
      · -- the head hook errors
        refine ⟨?_, ?_, ?_⟩
        · intro i p hp
          rw [toolAfterTrace_cons_err h hs input result hh] at hp ⊢
          match i with
          | 0 =>
              obtain rfl : (result, (.error e : Except E (Option ρ))) = p := by
                simpa using hp
              simp [lastSome_nil]
          | j + 1 => simp at hp
        · intro hne
          exact absurd rfl
            (hne (result, .error e)
              (by rw [toolAfterTrace_cons_err h hs input result hh]; simp) e)
        · intro i p e' hp he'
          rw [toolAfterTrace_cons_err h hs input result hh] at hp ⊢
          match i with
          | 0 =>
              obtain rfl : (result, (.error e : Except E (Option ρ))) = p := by
                simpa using hp
              obtain rfl : e = e' := by simpa using he'
              exact ⟨triggerAfter_cons_err h hs input result hh, by simp⟩
          | j + 1 => simp at hp
      · rcases m with _ | m
        · -- the head hook returns no modification
          obtain ⟨ih1, ih2, ih3⟩ := ih input result
          refine ⟨?_, ?_, ?_⟩
          · intro i p hp
            rw [toolAfterTrace_cons_none h hs input result hh] at hp ⊢
            match i with
            | 0 =>
                obtain rfl : (result, (.ok none : Except E (Option ρ))) = p := by
                  simpa using hp
                simp [lastSome_nil]
            | j + 1 =>
                have hp' : (toolAfterTrace hs input result)[j]? = some p := by simpa using hp
                have hrec := ih1 j p hp'
                simpa [traceMods_cons, lastSome_cons_none] using hrec
          · intro hne
            rw [toolAfterTrace_cons_none h hs input result hh] at hne ⊢
            have hne' : ∀ p ∈ toolAfterTrace hs input result, ∀ e : E, p.2 ≠ .error e :=
              fun p hp e => hne p (by simp [hp]) e
            obtain ⟨h1, h2⟩ := ih2 hne'
            refine ⟨?_, by simp [h2]⟩
            rw [triggerAfter_cons_none h hs input result hh, h1]
            simp [traceMods_cons, lastSome_cons_none]
          · intro i p e' hp he'
            rw [toolAfterTrace_cons_none h hs input result hh] at hp ⊢
            match i with
            | 0 =>
                obtain rfl : (result, (.ok none : Except E (Option ρ))) = p := by
                  simpa using hp
                simp at he'
            | j + 1 =>
                have hp' : (toolAfterTrace hs input result)[j]? = some p := by simpa using hp
                obtain ⟨h1, h2⟩ := ih3 j p e' hp' he'
                exact ⟨by rw [triggerAfter_cons_none h hs input result hh]; exact h1,
                  by simp; omega⟩
        · -- the head hook modifies the result to `m`
          obtain ⟨ih1, ih2, ih3⟩ := ih input m
          refine ⟨?_, ?_, ?_⟩
          · intro i p hp
            rw [toolAfterTrace_cons_some h hs input result hh] at hp ⊢
            match i with
            | 0 =>
                obtain rfl : (result, (.ok (some m) : Except E (Option ρ))) = p := by
                  simpa using hp
                simp [lastSome_nil]
            | j + 1 =>
                have hp' : (toolAfterTrace hs input m)[j]? = some p := by simpa using hp
                have hrec := ih1 j p hp'
                simp only [traceMods_cons, List.take_succ_cons, lastSome_cons_some]
                rw [hrec]
                simp
          · intro hne
            rw [toolAfterTrace_cons_some h hs input result hh] at hne ⊢
            have hne' : ∀ p ∈ toolAfterTrace hs input m, ∀ e : E, p.2 ≠ .error e :=
              fun p hp e => hne p (by simp [hp]) e
            obtain ⟨h1, h2⟩ := ih2 hne'
            refine ⟨?_, by simp [h2]⟩
            rw [triggerAfter_cons_some h hs input result hh, h1]
            simp [traceMods_cons, lastSome_cons_some]
          · intro i p e' hp he'
            rw [toolAfterTrace_cons_some h hs input result hh] at hp ⊢
            match i with
            | 0 =>
                obtain rfl : (result, (.ok (some m) : Except E (Option ρ))) = p := by
                  simpa using hp
                simp at he'
            | j + 1 =>
                have hp' : (toolAfterTrace hs input m)[j]? = some p := by simpa using hp
                obtain ⟨h1, h2⟩ := ih3 j p e' hp' he'
                exact ⟨by rw [triggerAfter_cons_some h hs input result hh]; exact h1,
                  by simp; omega⟩

/-- Witness for C5 (amended): the modified result `5` is the one returned
with the second hook's error. -/
theorem trigger_tool_after_threads_result_witness :
    triggerToolExecuteAfter [afterHookModify, afterHookFail] sampleAfterInput 0
        = (5, some "hook failure")
      ∧ (toolAfterTrace [afterHookModify, afterHookFail] sampleAfterInput 0).length = 2 := by
  have h := (trigger_tool_after_threads_result Unit Nat String
      [afterHookModify, afterHookFail] sampleAfterInput 0).2.2 1 (5, .error "hook failure")
    "hook failure" (by rfl) rfl
  exact ⟨h.1, by rw [← h.2]⟩

lemma lookup_append {α β : Type} [BEq α] (l1 l2 : List (α × β)) (k : α) :
    (l1 ++ l2).lookup k = ((l1.lookup k).orElse fun _ => l2.lookup k) := by
  induction l1 with
  | nil => simp [List.lookup]
  | cons a l1 ih =>
      cases h : k == a.1 <;> simp [List.lookup, h, ih]

lemma length_filterMap_eq_length_filter {α β : Type} (f : α → Option β) (l : List α) :
    (l.filterMap f).length = (l.filter fun a => (f a).isSome).length := by
  induction l with
  | nil => simp
  | cons a l ih => cases h : f a <;> simp [h, ih]

/-- After a sequence of successful loads, the plugin map and every pipeline
are the initial ones extended, in order, with each plugin's entry and its
non-nil hooks. -/
lemma loadAll_characterization {E C S M P T A : Type} :
    ∀ (ps : List (PluginM E C S M P T A)) (r : Registry E C S M P T A),
      (∀ p ∈ ps, p.initErr = none) →
      (∀ p ∈ ps, r.plugins.lookup p.info.name = none) →
      (ps.map fun p => p.info.name).Nodup →
      (r.loadAll ps).plugins = r.plugins ++ ps.map (fun p => (p.info.name, p))
        ∧ (r.loadAll ps).configHooks
            = r.configHooks ++ ps.filterMap (fun p => p.hooks.config)
        ∧ (r.loadAll ps).sessionHooks
            = r.sessionHooks ++ ps.filterMap (fun p => p.hooks.session)
        ∧ (r.loadAll ps).messageHooks
            = r.messageHooks ++ ps.filterMap (fun p => p.hooks.message)
        ∧ (r.loadAll ps).permHooks
            = r.permHooks ++ ps.filterMap (fun p => p.hooks.permission)
        ∧ (r.loadAll ps).toolHooks
            = r.toolHooks ++ ps.filterMap (fun p => p.hooks.tool)
        ∧ (r.loadAll ps).agentHooks
            = r.agentHooks ++ ps.filterMap (fun p => p.hooks.agent) := by
  intro ps
  induction ps with
  | nil => intro r _ _ _; simp [Registry.loadAll]
  | cons p ps ih =>
      intro r hinit hfresh hnodup
      have hpfresh : r.plugins.lookup p.info.name = none := hfresh p (by simp)
      have hpinit : p.initErr = none := hinit p (by simp)
      have hload : r.loadPlugin p
          = .ok (Registry.registerHooks
              { r with plugins := r.plugins ++ [(p.info.name, p)] } p.hooks) := by
        simp [Registry.loadPlugin, hpfresh, hpinit]
      have hstep : r.loadAll (p :: ps)
          = (Registry.registerHooks
              { r with plugins := r.plugins ++ [(p.info.name, p)] } p.hooks).loadAll ps := by
        simp [Registry.loadAll, hload]
      set r1 := Registry.registerHooks
        { r with plugins := r.plugins ++ [(p.info.name, p)] } p.hooks with hr1
      have hplugs : r1.plugins = r.plugins ++ [(p.info.name, p)] := by
        simp [hr1, Registry.registerHooks]
      have hfresh1 : ∀ q ∈ ps, r1.plugins.lookup q.info.name = none := by
        intro q hq
        rw [hplugs, lookup_append]
        have h1 : r.plugins.lookup q.info.name = none := hfresh q (by simp [hq])
        have hne : q.info.name ≠ p.info.name := by
          intro hcontra
          have := hnodup
          simp only [List.map_cons, List.nodup_cons] at this
          exact this.1 (by
            rw [← hcontra]
            exact List.mem_map_of_mem (fun x => x.info.name) hq)
        have hne' : (q.info.name == p.info.name) = false := by
          simpa using hne
        simp [h1, List.lookup, hne']
      have hnodup1 : (ps.map fun q => q.info.name).Nodup := by
        simp only [List.map_cons, List.nodup_cons] at hnodup
        exact hnodup.2
      obtain ⟨h1, h2, h3, h4, h5, h6, h7⟩ :=
        ih r1 (fun q hq => hinit q (by simp [hq])) hfresh1 hnodup1
      rw [hstep]
      refine ⟨?_, ?_, ?_, ?_, ?_, ?_, ?_⟩
      · rw [h1, hplugs]; simp
      · rw [h2]; cases hc : p.hooks.config <;>
          simp [hr1, Registry.registerHooks, hc]
      · rw [h3]; cases hc : p.hooks.session <;>
          simp [hr1, Registry.registerHooks, hc]
      · rw [h4]; cases hc : p.hooks.message <;>
          simp [hr1, Registry.registerHooks, hc]
      · rw [h5]; cases hc : p.hooks.permission <;>
          simp [hr1, Registry.registerHooks, hc]
      · rw [h6]; cases hc : p.hooks.tool <;>
          simp [hr1, Registry.registerHooks, hc]
      · rw [h7]; cases hc : p.hooks.agent <;>
          simp [hr1, Registry.registerHooks, hc]

/-- Counterexample for C9: one successfully loaded plugin whose hooks are
`NewBaseHooks()` no-ops.  The contract's no-op implementations are non-nil
interface values, so `registerHooks` appends them: the config pipeline has
length 1 even though no extension supplied a custom (non-no-op) config
hook. -/
theorem pipeline_counts_noop_hooks :
    (newRegistry.loadAll [skillsStylePlugin]).configHooks.length = 1
      ∧ countCustom [skillsStylePlugin.hooks.config] = 0 := by
  constructor <;> rfl

/-- C9 amended: for every hook kind, after a sequence of successful loads
the pipeline length equals the number of loaded extensions whose hook
getter returned a non-*nil* implementation — the contract's no-op
implementations are non-nil and do count. -/
theorem pipeline_length_counts_nonnil_hooks (E C S M P T A : Type) :
    ∀ ps : List (PluginM E C S M P T A),
      (∀ p ∈ ps, p.initErr = none) →
      (ps.map fun p => p.info.name).Nodup →
      (newRegistry.loadAll ps).configHooks.length
          = countPresent (ps.map fun p => p.hooks.config)
        ∧ (newRegistry.loadAll ps).sessionHooks.length
            = countPresent (ps.map fun p => p.hooks.session)
        ∧ (newRegistry.loadAll ps).messageHooks.length
            = countPresent (ps.map fun p => p.hooks.message)
        ∧ (newRegistry.loadAll ps).permHooks.length
            = countPresent (ps.map fun p => p.hooks.permission)
        ∧ (newRegistry.loadAll ps).toolHooks.length
            = countPresent (ps.map fun p => p.hooks.tool)
        ∧ (newRegistry.loadAll ps).agentHooks.length
            = countPresent (ps.map fun p => p.hooks.agent) := by
  intro ps hinit hnodup
  obtain ⟨h1, h2, h3, h4, h5, h6, h7⟩ :=
    loadAll_characterization ps newRegistry hinit
      (fun p _ => by simp [newRegistry, List.lookup]) hnodup
  refine ⟨?_, ?_, ?_, ?_, ?_, ?_⟩
  · rw [h2]; simp [newRegistry, countPresent, length_filterMap_eq_length_filter,
      List.filter_map, Function.comp_def]
  · rw [h3]; simp [newRegistry, countPresent, length_filterMap_eq_length_filter,
      List.filter_map, Function.comp_def]
  · rw [h4]; simp [newRegistry, countPresent, length_filterMap_eq_length_filter,
      List.filter_map, Function.comp_def]
  · rw [h5]; simp [newRegistry, countPresent, length_filterMap_eq_length_filter,
      List.filter_map, Function.comp_def]
  · rw [h6]; simp [newRegistry, countPresent, length_filterMap_eq_length_filter,
      List.filter_map, Function.comp_def]
  · rw [h7]; simp [newRegistry, countPresent, length_filterMap_eq_length_filter,
      List.filter_map, Function.comp_def]

/-- Witness for C9 (amended): two concrete successful loads produce a
permission pipeline of length 2 and an agent pipeline of length 1. -/
theorem pipeline_length_counts_nonnil_hooks_witness :
    (newRegistry.loadAll [witnessPluginAlpha, witnessPluginBeta]).permHooks.length = 2
      ∧ (newRegistry.loadAll [witnessPluginAlpha, witnessPluginBeta]).agentHooks.length
          = 1 := by
  have h := pipeline_length_counts_nonnil_hooks Unit Unit Unit Unit Unit Unit Unit
    [witnessPluginAlpha, witnessPluginBeta] (by decide) (by decide)
  exact ⟨by rw [h.2.2.2.1]; rfl, by rw [h.2.2.2.2.2]; rfl⟩

/-- C10: `Registry.Shutdown` calls `Shutdown` on every loaded plugin but
removes none: the plugin map (hence `GetPlugin` and `ListPlugins`) and all
six hook pipelines are unchanged, and reloading any already-present name
still fails as a duplicate. -/
theorem registry_shutdown_preserves_state (E C S M P T A : Type) :
    ∀ r : Registry E C S M P T A,
      r.shutdownAll.2.1 = r.plugins.map Prod.fst
        ∧ (∀ name, r.shutdownAll.1.getPlugin name = r.getPlugin name)
        ∧ r.shutdownAll.1.listPlugins = r.listPlugins
        ∧ r.shutdownAll.1.configHooks = r.configHooks
        ∧ r.shutdownAll.1.sessionHooks = r.sessionHooks
        ∧ r.shutdownAll.1.messageHooks = r.messageHooks
        ∧ r.shutdownAll.1.permHooks = r.permHooks
        ∧ r.shutdownAll.1.toolHooks = r.toolHooks
        ∧ r.shutdownAll.1.agentHooks = r.agentHooks
        ∧ (∀ p : PluginM E C S M P T A,
            (r.getPlugin p.info.name).isSome →
            r.shutdownAll.1.loadPlugin p = .error (.alreadyLoaded p.info.name)) := by
  intro r
  have hfold : ∀ (l : List (String × PluginM E C S M P T A))
      (acc : List String × List (String × E)),
      (l.foldl (fun acc q =>
        (acc.1 ++ [q.1],
          match q.2.shutdownErr with
          | some e => acc.2 ++ [(q.1, e)]
          | none => acc.2)) acc).1 = acc.1 ++ l.map Prod.fst := by
    intro l
    induction l with
    | nil => intro acc; simp
    | cons q l ih => intro acc; cases h : q.2.shutdownErr <;> simp [h, ih]
  refine ⟨?_, fun _ => rfl, rfl, rfl, rfl, rfl, rfl, rfl, rfl, ?_⟩
  · simpa [Registry.shutdownAll] using hfold r.plugins ([], [])
  · intro p hp
    have : (r.shutdownAll.1.plugins.lookup p.info.name).isSome := hp
    simp [Registry.loadPlugin, this]

/-- Witness for C10: after loading `alpha` and shutting the registry down,
loading a plugin named `alpha` again is still rejected as a duplicate. -/
theorem registry_shutdown_preserves_state_witness :
    (newRegistry.loadAll [witnessPluginAlpha]).shutdownAll.1.loadPlugin witnessPluginAlpha
        = .error (.alreadyLoaded "alpha") := by
  have h := (registry_shutdown_preserves_state Unit Unit Unit Unit Unit Unit Unit
      (newRegistry.loadAll [witnessPluginAlpha])).2.2.2.2.2.2.2.2.2
    witnessPluginAlpha (by rfl)
  exact h

/-- Counterexample for C3: a loaded extension's config hook errors, yet
`New` completes startup successfully — the error surfaces only as the
logged warning, and the host goes on with the loaded configuration. -/
theorem config_hook_error_does_not_abort_startup :
    (appNew plainAppConfig [failingConfigHookPlugin]).pluginWarning
        = some "config hook failed"
      ∧ (appNew plainAppConfig [failingConfigHookPlugin]).result = .ok () :=
  ⟨rfl, rfl⟩

/-- C3 amended: an error from an extension's config hook aborts only the
config-hook pipeline — the hooks after the failing one are never consulted
and `initPlugins` reports the error — but it does not abort startup: `New`
records the error as a warning and its own outcome is exactly what it would
be with no plugin trouble (the coder-agent outcome when configured,
success otherwise). -/
theorem config_hook_error_warns_and_startup_continues (γ E S M P T A : Type) :
    (∀ (pre : List (HookVal (ConfigHookFn γ E))) (h : HookVal (ConfigHookFn γ E))
        (post : List (HookVal (ConfigHookFn γ E))) (cfg cfg1 cfg2 : γ) (e : E),
        configPipelineRun pre cfg = (cfg1, none) →
        runConfigHookVal h cfg1 = (cfg2, some e) →
        configPipelineRun (pre ++ h :: post) cfg = (cfg2, some e))
    ∧ (∀ (acfg : AppConfig γ E)
        (ps : List (PluginM E (ConfigHookFn γ E) S M P T A)) (e : E),
        (initPlugins acfg.config ps).2.2 = some e →
        (appNew acfg ps).pluginWarning = some e
          ∧ (appNew acfg ps).result
              = (if acfg.isConfigured then acfg.coderAgentInit else .ok ())) := by
  constructor
  · intro pre
    induction pre with
    | nil =>
        intro h post cfg cfg1 cfg2 e hpre hh
        obtain rfl : cfg = cfg1 := by
          simpa [configPipelineRun] using hpre
        simp [configPipelineRun, hh]
    | cons x pre ih =>
        intro h post cfg cfg1 cfg2 e hpre hh
        rcases hx : runConfigHookVal x cfg with ⟨c', oe⟩
        cases oe with
        | some e' =>
            rw [show configPipelineRun (x :: pre) cfg = (c', some e') from by
              simp [configPipelineRun, hx]] at hpre
            simp at hpre
        | none =>
            have hpre' : configPipelineRun pre c' = (cfg1, none) := by
              simpa [configPipelineRun, hx] using hpre
            have := ih h post c' cfg1 cfg2 e hpre' hh
            simpa [configPipelineRun, hx] using this
  · intro acfg ps e he
    exact ⟨by simp [appNew, he], rfl⟩

/-- Witness for C3 (amended): with the failing config hook loaded, `New`
records the warning and completes startup. -/
theorem config_hook_error_warns_and_startup_continues_witness :
    (appNew plainAppConfig [failingConfigHookPlugin]).pluginWarning
        = some "config hook failed"
      ∧ (appNew plainAppConfig [failingConfigHookPlugin]).result
          = (if plainAppConfig.isConfigured then plainAppConfig.coderAgentInit
             else .ok ()) := by
  exact (config_hook_error_warns_and_startup_continues
      Unit String Unit Unit Unit Unit Unit).2
    plainAppConfig [failingConfigHookPlugin] "config hook failed" rfl

/-- Counterexample for C4: the loader looks up the symbol `Plugin`, not
`Extension`.  An artifact exporting a conforming value under `Extension`
only is rejected with the missing-entry-symbol error instead of loading. -/
theorem loader_ignores_extension_symbol :
    (extensionOnlyArtifact.symbols.lookup "Extension").isSome = true
      ∧ loadGoPlugin newRegistry extensionOnlyArtifact = .error .missingEntrySymbol :=
  ⟨rfl, rfl⟩

/-- C4 amended: for every artifact the loader opens, it looks up the
exported symbol named exactly `Plugin`; an artifact without it fails with
the missing-entry-symbol error, a `Plugin` symbol not conforming to the
plugin contract fails with the contract-mismatch error, and a conforming
one is handed to the registry. -/
theorem loader_entry_symbol_spec (E C S M P T A : Type) :
    ∀ (r : Registry E C S M P T A) (artifact : GoArtifact E C S M P T A),
      (artifact.symbols.lookup "Plugin" = none →
          loadGoPlugin r artifact = .error .missingEntrySymbol)
      ∧ (artifact.symbols.lookup "Plugin" = some .otherValue →
          loadGoPlugin r artifact = .error .contractMismatch)
      ∧ (∀ p, artifact.symbols.lookup "Plugin" = some (.pluginValue p) →
          loadGoPlugin r artifact
            = match r.loadPlugin p with
              | .error e => .error (.registryFailed e)
              | .ok r' => .ok r') := by
  intro r artifact
  refine ⟨?_, ?_, ?_⟩
  · intro h; simp [loadGoPlugin, h]
  · intro h; simp [loadGoPlugin, h]
  · intro p h; simp [loadGoPlugin, h]

/-- Witness for C4 (amended): applied to the artifact that exports only
`Extension`, whose `Plugin` lookup is empty. -/
theorem loader_entry_symbol_spec_witness :
    loadGoPlugin newRegistry extensionOnlyArtifact = .error .missingEntrySymbol := by
  exact (loader_entry_symbol_spec Unit Unit Unit Unit Unit Unit Unit
      newRegistry extensionOnlyArtifact).1 rfl

lemma toNat_ofNat_of_valid (n : Nat) (h : n.isValidChar) : (Char.ofNat n).toNat = n := by
  have hlt : n < 2 ^ 32 := by
    rcases h with h | h
    · omega
    · omega
  simp [Char.ofNat, h, Char.ofNatAux, Char.toNat, UInt32.toNat, BitVec.toNat_ofNat,
    Nat.mod_eq_of_lt hlt]

/-- Sanitizing and then lower-casing always lands in `[a-z0-9_]`. -/
lemma lower_sanitize_isLowerTool (c : Char) :
    isLowerToolChar (asciiLowerChar (sanitizeChar c)) = true := by
  by_cases hw : isWordChar c = true
  · have hP : (65 ≤ c.toNat ∧ c.toNat ≤ 90) ∨ (97 ≤ c.toNat ∧ c.toNat ≤ 122)
        ∨ (48 ≤ c.toNat ∧ c.toNat ≤ 57) ∨ c.toNat = 95 := by
      by_contra hcon
      simp [isWordChar, hcon] at hw
    have hsan : sanitizeChar c = c := by simp [sanitizeChar, hw]
    rw [hsan]
    rcases hP with h1 | h2 | h3 | h4
    · have hvalid : (c.toNat + 32).isValidChar := Or.inl (by omega)
      have hlow : asciiLowerChar c = Char.ofNat (c.toNat + 32) := by
        simp [asciiLowerChar, h1.1, h1.2]
      rw [hlow, isLowerToolChar, if_pos]
      rw [toNat_ofNat_of_valid _ hvalid]
      exact Or.inl (by omega)
    · have hlow : asciiLowerChar c = c := by
        simp only [asciiLowerChar, ite_eq_right_iff]
        omega
      rw [hlow, isLowerToolChar, if_pos (Or.inl h2)]
    · have hlow : asciiLowerChar c = c := by
        simp only [asciiLowerChar, ite_eq_right_iff]
        omega
      rw [hlow, isLowerToolChar, if_pos (Or.inr (Or.inl h3))]
    · have hlow : asciiLowerChar c = c := by
        simp only [asciiLowerChar, ite_eq_right_iff]
        omega
      rw [hlow, isLowerToolChar, if_pos (Or.inr (Or.inr h4))]
  · have hsan : sanitizeChar c = '_' := by
      simp only [sanitizeChar, ite_eq_right_iff]
      intro hcon
      exact absurd hcon hw
    rw [hsan]
    decide

/-- Whenever the trimmed relative path is non-empty, `generateToolName`
produces a name matching `^skills_[a-z0-9_]+$`. -/
lemma generateToolName_pattern (rel : GoStr)
    (h : trimSuffixList (trimPrefixList rel ('.' :: '/' :: [])) ['/'] ≠ []) :
    toolNamePattern (generateToolName rel) = true := by
  unfold generateToolName toolNamePattern
  set t := trimSuffixList (trimPrefixList rel ('.' :: '/' :: [])) ['/'] with ht
  set body := ((t.map slashToUnderscore).map sanitizeChar).map asciiLowerChar with hbody
  have hlen : ("skills_".data).length = 7 := rfl
  have hdrop : ("skills_".data ++ body).drop 7 = body := by
    rw [← hlen, List.drop_left]
  have hpre : "skills_".data.isPrefixOf ("skills_".data ++ body) = true :=
    List.isPrefixOf_iff_prefix.mpr (List.prefix_append _ _)
  have hbody' : body = t.map fun c => asciiLowerChar (sanitizeChar (slashToUnderscore c)) := by
    simp [hbody, List.map_map, Function.comp_def]
  have hne : body.isEmpty = false := by
    have hb : body ≠ [] := by
      rw [hbody']
      simpa using h
    simpa using hb
  have hall : body.all isLowerToolChar = true := by
    rw [List.all_eq_true]
    intro x hx
    rw [hbody', List.mem_map] at hx
    obtain ⟨c, _, rfl⟩ := hx
    exact lower_sanitize_isLowerTool _
  rw [hdrop, hpre, hne, hall]
  rfl

lemma splitSlash_no_slash : ∀ (s : GoStr), ∀ p ∈ splitSlash s, '/' ∉ p := by
  intro s
  induction s with
  | nil => intro p hp; simp [splitSlash] at hp; simp [hp]
  | cons c cs ih =>
      intro p hp
      by_cases hc : c = '/'
      · rw [show splitSlash (c :: cs) = [] :: splitSlash cs from by
          simp [splitSlash, hc]] at hp
        rcases List.mem_cons.mp hp with rfl | hmem
        · simp
        · exact ih p hmem
      · cases hs : splitSlash cs with
        | nil =>
            rw [show splitSlash (c :: cs) = [[c]] from by
              simp [splitSlash, hc, hs]] at hp
            simp at hp
            subst hp
            intro hcon
            simp at hcon
            exact hc hcon.symm
        | cons q qs =>
            rw [show splitSlash (c :: cs) = (c :: q) :: qs from by
              simp [splitSlash, hc, hs]] at hp
            rcases List.mem_cons.mp hp with rfl | hmem
            · intro hcon
              rcases List.mem_cons.mp hcon with h1 | h2
              · exact hc h1.symm
              · exact ih q (by simp [hs]) h2
            · exact ih p (by simp [hs, hmem])

lemma cleanStack_inv (rooted : Bool) :
    ∀ (comps stack : List GoStr),
      (∀ e ∈ stack, e ≠ [] ∧ '/' ∉ e) →
      (∀ p ∈ comps, '/' ∉ p) →
      ∀ e ∈ cleanStack rooted stack comps, e ≠ [] ∧ '/' ∉ e := by
  intro comps
  induction comps with
  | nil => intro stack hstack _ e he; exact hstack e (by simpa [cleanStack] using he)
  | cons c cs ih =>
      intro stack hstack hcomps e he
      by_cases h1 : c = [] ∨ c = ['.']
      · rw [show cleanStack rooted stack (c :: cs) = cleanStack rooted stack cs from by
          simp [cleanStack, h1]] at he
        exact ih stack hstack (fun p hp => hcomps p (by simp [hp])) e he
      · by_cases h2 : c = ['.', '.']
        · cases stack with
          | nil =>
              cases hr : rooted
              · rw [show cleanStack rooted [] (c :: cs)
                    = cleanStack rooted [['.', '.']] cs from by
                  simp [cleanStack, h1, h2, hr]] at he
                refine ih [['.', '.']] ?_ (fun p hp => hcomps p (by simp [hp])) e he
                intro x hx
                simp at hx
                subst hx
                refine ⟨by simp, by decide⟩
              · rw [show cleanStack rooted [] (c :: cs) = cleanStack rooted [] cs from by
                  simp [cleanStack, h1, h2, hr]] at he
                exact ih [] (by simp) (fun p hp => hcomps p (by simp [hp])) e he
          | cons top rest =>
              by_cases h3 : top = ['.', '.']
              · rw [show cleanStack rooted (top :: rest) (c :: cs)
                    = cleanStack rooted (['.', '.'] :: top :: rest) cs from by
                  simp [cleanStack, h1, h2, h3]] at he
                refine ih (['.', '.'] :: top :: rest) ?_
                  (fun p hp => hcomps p (by simp [hp])) e he
                intro x hx
                rcases List.mem_cons.mp hx with rfl | hx'
                · exact ⟨by simp, by decide⟩
                · exact hstack x hx'
              · rw [show cleanStack rooted (top :: rest) (c :: cs)
                    = cleanStack rooted rest cs from by
                  simp [cleanStack, h1, h2, h3]] at he
                exact ih rest (fun x hx => hstack x (by simp [hx]))
                  (fun p hp => hcomps p (by simp [hp])) e he
        · rw [show cleanStack rooted stack (c :: cs)
              = cleanStack rooted (c :: stack) cs from by
            simp [cleanStack, h1, h2]] at he
          refine ih (c :: stack) ?_ (fun p hp => hcomps p (by simp [hp])) e he
          intro x hx
          rcases List.mem_cons.mp hx with rfl | hx'
          · exact ⟨(not_or.mp h1).1, hcomps x (by simp)⟩
          · exact hstack x hx'

lemma joinSlash_ne_nil :
    ∀ es : List GoStr, es ≠ [] → (∀ e ∈ es, e ≠ []) → joinSlash es ≠ [] := by
  intro es
  cases es with
  | nil => intro h; exact absurd rfl h
  | cons p rest =>
      intro _ hinv
      cases rest with
      | nil => simpa [joinSlash] using hinv p (by simp)
      | cons q es' => simp [joinSlash]

lemma joinSlash_getLast_ne_slash :
    ∀ es : List GoStr, es ≠ [] → (∀ e ∈ es, e ≠ [] ∧ '/' ∉ e) →
      (joinSlash es).getLast? ≠ some '/' := by
  intro es
  induction es with
  | nil => intro h; exact absurd rfl h
  | cons p rest ih =>
      intro _ hinv
      cases rest with
      | nil =>
          obtain ⟨hne, hns⟩ := hinv p (by simp)
          rw [show joinSlash [p] = p from rfl, List.getLast?_eq_getLast p hne]
          intro hcon
          simp at hcon
          exact hns (hcon ▸ List.getLast_mem hne)
      | cons q es' =>
          have hinv' : ∀ e ∈ q :: es', e ≠ [] ∧ '/' ∉ e :=
            fun e he => hinv e (by simp [he])
          have hjs : joinSlash (q :: es') ≠ [] :=
            joinSlash_ne_nil (q :: es') (by simp) (fun e he => (hinv' e he).1)
          have hrec := ih (by simp) hinv'
          rw [show joinSlash (p :: q :: es') = p ++ '/' :: joinSlash (q :: es') from rfl,
            List.getLast?_append]
          rw [show ('/' :: joinSlash (q :: es')) = ['/'] ++ joinSlash (q :: es') from rfl,
            List.getLast?_append]
          rw [List.getLast?_eq_getLast _ hjs] at hrec ⊢
          simpa using hrec

lemma goClean_getLast_slash (p : GoStr) :
    (goClean p).getLast? = some '/' → goClean p = ['/'] := by
  intro hlast
  by_cases hp : p = []
  · rw [show goClean p = ['.'] from by simp [goClean, hp]] at hlast
    simp at hlast
  · have hstack : ∀ e ∈ (cleanStack (isRooted p) [] (splitSlash p)).reverse,
        e ≠ [] ∧ '/' ∉ e := by
      intro e he
      exact cleanStack_inv (isRooted p) (splitSlash p) [] (by simp)
        (splitSlash_no_slash p) e (List.mem_reverse.mp he)
    set stack := (cleanStack (isRooted p) [] (splitSlash p)).reverse with hsdef
    have hclean : goClean p
        = (if isRooted p then
            (if joinSlash stack = [] then ['/'] else '/' :: joinSlash stack)
          else (if joinSlash stack = [] then ['.'] else joinSlash stack)) := by
      rw [goClean, if_neg hp]
    by_cases hb : joinSlash stack = []
    · cases hr : isRooted p
      · rw [hclean, hr] at hlast ⊢
        simp [hb] at hlast
      · rw [hclean, hr] at hlast ⊢
        simp [hb]
    · have hstackne : stack ≠ [] := by
        intro hcon
        rw [hcon] at hb
        exact hb rfl
      have hlast' := joinSlash_getLast_ne_slash stack hstackne hstack
      cases hr : isRooted p
      · rw [hclean, hr] at hlast
        simp only [if_neg hb, Bool.false_eq_true, if_false] at hlast
        exact absurd hlast hlast'
      · rw [hclean, hr] at hlast
        simp only [if_neg hb, if_true] at hlast
        rw [show ('/' :: joinSlash stack) = ['/'] ++ joinSlash stack from rfl,
          List.getLast?_append, List.getLast?_eq_getLast _ hb] at hlast
        simp at hlast
        exact absurd (by rw [List.getLast?_eq_getLast _ hb, hlast]) hlast'

lemma goDir_getLast_slash (path : GoStr) :
    (goDir path).getLast? = some '/' → goDir path = ['/'] := by
  intro h
  cases hidx : lastSlashIdx path with
  | none =>
      rw [show goDir path = ['.'] from by simp [goDir, hidx]] at h
      simp at h
  | some j =>
      rw [show goDir path = goClean (path.take (j + 1)) from by simp [goDir, hidx]] at h ⊢
      exact goClean_getLast_slash _ h

lemma lastIndexOfSub_isPrefixOf {s sub : GoStr} {i : Nat}
    (h : lastIndexOfSub s sub = some i) : sub.isPrefixOf (s.drop i) = true := by
  unfold lastIndexOfSub at h
  simpa using List.find?_some h

/-- If trimming `./` and then `/` empties a string, it was empty or ended
with a separator. -/
lemma trims_empty_cases (rel : GoStr) :
    trimSuffixList (trimPrefixList rel ('.' :: '/' :: [])) ['/'] = [] →
    rel = [] ∨ rel.getLast? = some '/' := by
  intro h
  by_cases hp : ('.' :: '/' :: []).isPrefixOf rel = true
  · obtain ⟨t, rfl⟩ := List.isPrefixOf_iff_prefix.mp hp
    rw [show trimPrefixList ('.' :: '/' :: [] ++ t) ('.' :: '/' :: []) = t from by
      simp [trimPrefixList, hp]] at h
    by_cases hs : ['/'].isSuffixOf t = true
    · obtain ⟨u, rfl⟩ := List.isSuffixOf_iff_suffix.mp hs
      right
      rw [show ('.' :: '/' :: [] ++ (u ++ ['/'])) = ('.' :: '/' :: u) ++ ['/'] from by
        simp]
      exact List.getLast?_concat _
    · rw [show trimSuffixList t ['/'] = t from by
        simp [trimSuffixList]
        intro hcon
        exact absurd (by simpa using hcon) hs] at h
      subst h
      right
      rfl
  · rw [show trimPrefixList rel ('.' :: '/' :: []) = rel from by
      simp [trimPrefixList]
      intro hcon
      exact absurd (by simpa using hcon) hp] at h
    by_cases hs : ['/'].isSuffixOf rel = true
    · obtain ⟨u, rfl⟩ := List.isSuffixOf_iff_suffix.mp hs
      right
      exact List.getLast?_concat _
    · rw [show trimSuffixList rel ['/'] = rel from by
        simp [trimSuffixList]
        intro hcon
        exact absurd (by simpa using hcon) hs] at h
      exact Or.inl h

/-- When the skill directory contains `/skills/`, dropping through the last
occurrence leaves something that the tool-name trims cannot empty. -/
lemma relPath_trims_ne_nil (path : GoStr) {i : Nat}
    (hi : lastIndexOfSub (goDir path) "/skills/".data = some i) :
    trimSuffixList (trimPrefixList ((goDir path).drop (i + 8))
      ('.' :: '/' :: [])) ['/'] ≠ [] := by
  intro hcon
  set d := goDir path with hd
  have hpref := List.isPrefixOf_iff_prefix.mp (lastIndexOfSub_isPrefixOf hi)
  obtain ⟨t, ht⟩ := hpref
  have hlen8 : ("/skills/".data).length = 8 := rfl
  have hlend : 8 ≤ d.length - i := by
    have := List.IsPrefix.length_le ⟨t, ht⟩
    simpa [hlen8] using this
  have htrel : t = d.drop (i + 8) := by
    have h1 : ("/skills/".data ++ t).drop 8 = t := by
      rw [← hlen8, List.drop_left]
    rw [ht] at h1
    rw [List.drop_drop] at h1
    simpa [Nat.add_comm] using h1.symm
  have hdlast : d.getLast? = some '/' := by
    rcases trims_empty_cases _ hcon with hrel | hrel
    · have hdi : d.drop i = "/skills/".data := by
        have ht0 : t = [] := htrel.trans hrel
        rw [ht0] at ht
        simpa using ht.symm
      calc d.getLast? = (d.take i ++ d.drop i).getLast? := by
            rw [List.take_append_drop]
        _ = some '/' := by
            rw [hdi, List.getLast?_append]
            rfl
    · calc d.getLast? = (d.take (i + 8) ++ d.drop (i + 8)).getLast? := by
            rw [List.take_append_drop]
        _ = some '/' := by
            rw [List.getLast?_append, hrel]
            rfl
  have : d = ['/'] := goDir_getLast_slash path (hd ▸ hdlast)
  rw [this] at hlend
  simp at hlend
  omega

/-- A valid skill name (all `[a-z0-9-]`) survives the tool-name trims. -/
lemma name_trims_ne_nil (name : GoStr) (hv : validateSkillName name = true) :
    trimSuffixList (trimPrefixList name ('.' :: '/' :: [])) ['/'] ≠ [] := by
  intro hcon
  have hne : name ≠ [] := by
    intro h
    rw [h] at hv
    simp [validateSkillName] at hv
  have hall : ∀ x ∈ name, (97 ≤ x.toNat ∧ x.toNat ≤ 122)
      ∨ (48 ≤ x.toNat ∧ x.toNat ≤ 57) ∨ x.toNat = 45 := by
    simpa [validateSkillName, hne] using hv
  rcases trims_empty_cases name hcon with h | h
  · exact hne h
  · have hmem : '/' ∈ name := by
      have := List.getLast?_eq_getLast name hne
      rw [this] at h
      simp at h
      exact h ▸ List.getLast_mem hne
    have h47 := hall _ hmem
    have : ('/' : Char).toNat = 47 := rfl
    rw [this] at h47
    omega

/-- Inversion of `parseSkillMD`: success is exactly the conjunction of the
source's checks, and the returned skill is the record the source builds. -/
lemma parseSkillMD_ok_iff (yamlParse : GoStr → Except Unit SkillFrontmatter)
    (skillPath content : GoStr) (s : Skill) :
    parseSkillMD yamlParse skillPath content = .ok s ↔
      ∃ p0 p1 p2 rest fm,
        goSplitN "---".data content 3 = p0 :: p1 :: p2 :: rest
        ∧ yamlParse p1 = .ok fm
        ∧ fm.name ≠ []
        ∧ validateSkillName fm.name = true
        ∧ 20 ≤ fm.description.length
        ∧ fm.name = goBase (goDir skillPath)
        ∧ s = { name := fm.name
                fullPath := goDir skillPath
                toolName := generateToolName (codeRelPath (goDir skillPath))
                description := fm.description
                allowedTools := fm.allowedTools
                metadata := fm.metadata
                license := fm.license
                content := trimSpaceList p2
                path := skillPath } := by
  constructor
  · intro hok
    unfold parseSkillMD at hok
    split at hok
    · rename_i p0 p1 p2 rest hgs
      split at hok
      · simp at hok
      · rename_i fm hyaml
        split at hok
        · simp at hok
        · split at hok
          · simp at hok
          · split at hok
            · simp at hok
            · dsimp only at hok
              split at hok
              · simp at hok
              · rename_i hn hv hd hdir
                refine ⟨p0, p1, p2, rest, fm, hgs, hyaml, hn, ?_, by omega, ?_, ?_⟩
                · simpa using hv
                · simpa using hdir
                · simpa using hok.symm
    · simp at hok
  · rintro ⟨p0, p1, p2, rest, fm, hgs, hyaml, hn, hv, hd, hdir, rfl⟩
    have hd' : ¬fm.description.length < 20 := by omega
    have hdir' : ¬fm.name ≠ goBase (goDir skillPath) := by simpa using hdir
    simp [parseSkillMD, hgs, hyaml, hn, hv, hd', hdir']

/-- Counterexample for C7: for the skill directory `skills/tools/analyzer`
the nearest ancestor directory named `skills` exists (the leading
component), so the spec's algorithm yields `skills_tools_analyzer`; the
code searches for the substring `/skills/`, misses the unpreceded leading
component, falls back to the basename, and yields `skills_analyzer`. -/
theorem tool_name_ignores_leading_skills_component :
    (parseSkillMD analyzerYaml analyzerPath analyzerContent).map Skill.toolName
        = .ok "skills_analyzer".data
      ∧ specToolName (goDir analyzerPath) = "skills_tools_analyzer".data
      ∧ "skills_analyzer".data ≠ "skills_tools_analyzer".data := by
  refine ⟨by rfl, by rfl, by decide⟩

/-- C7 amended: for every successfully parsed skill, the tool name is
obtained from the portion of the skill directory after the last occurrence
of the substring `/skills/` (the nearest `skills` ancestor *preceded by a
separator*; the directory basename when there is no such occurrence), with
separators and characters outside `[A-Za-z0-9_]` replaced by `_`,
lower-cased, prefixed by `skills_`; consequently it always matches
`^skills_[a-z0-9_]+$`. -/
theorem parsed_skill_tool_name_pattern :
    ∀ (yamlParse : GoStr → Except Unit SkillFrontmatter) (skillPath content : GoStr)
      (s : Skill),
      parseSkillMD yamlParse skillPath content = .ok s →
      s.toolName = generateToolName (codeRelPath (goDir skillPath))
        ∧ toolNamePattern s.toolName = true := by
  intro yamlParse skillPath content s hok
  obtain ⟨p0, p1, p2, rest, fm, hgs, hyaml, hn, hv, hd, hdir, rfl⟩ :=
    (parseSkillMD_ok_iff yamlParse skillPath content s).mp hok
  refine ⟨rfl, ?_⟩
  show toolNamePattern (generateToolName (codeRelPath (goDir skillPath))) = true
  cases hi : lastIndexOfSub (goDir skillPath) "/skills/".data with
  | some i =>
      rw [show codeRelPath (goDir skillPath) = (goDir skillPath).drop (i + 8) from by
        simp [codeRelPath, hi]]
      exact generateToolName_pattern _ (relPath_trims_ne_nil skillPath hi)
  | none =>
      rw [show codeRelPath (goDir skillPath) = goBase (goDir skillPath) from by
        simp [codeRelPath, hi]]
      rw [← hdir]
      exact generateToolName_pattern _ (name_trims_ne_nil _ hv)

/-- Witness for C7 (amended): the `analyzer` fixture parses, and its tool
name `skills_analyzer` matches the pattern. -/
theorem parsed_skill_tool_name_pattern_witness :
    toolNamePattern "skills_analyzer".data = true := by
  have h := parsed_skill_tool_name_pattern analyzerYaml analyzerPath analyzerContent
    analyzerSkill (by rfl)
  exact h.2

lemma discoverStep_core (yamlParse : GoStr → Except Unit SkillFrontmatter)
    (st : DiscoverState) (f : WalkedFile) :
    (discoverStep yamlParse st f).allSkills
        = (discoverCore yamlParse (st.allSkills, st.seenToolNames) f).1
      ∧ (discoverStep yamlParse st f).seenToolNames
        = (discoverCore yamlParse (st.allSkills, st.seenToolNames) f).2 := by
  unfold discoverStep discoverCore
  cases parseSkillMD yamlParse f.path f.content with
  | error e => simp
  | ok skill =>
      cases hlk : st.seenToolNames.lookup skill.toolName <;> simp [hlk]

lemma foldl_step_core (yamlParse : GoStr → Except Unit SkillFrontmatter) :
    ∀ (files : List WalkedFile) (st : DiscoverState),
      ((files.foldl (discoverStep yamlParse) st).allSkills,
        (files.foldl (discoverStep yamlParse) st).seenToolNames)
        = files.foldl (discoverCore yamlParse) (st.allSkills, st.seenToolNames) := by
  intro files
  induction files with
  | nil => intro st; simp
  | cons f fs ih =>
      intro st
      rw [List.foldl_cons, List.foldl_cons, ih,
        (discoverStep_core yamlParse st f).1, (discoverStep_core yamlParse st f).2]

lemma discover_warnings_mono (yamlParse : GoStr → Except Unit SkillFrontmatter) :
    ∀ (files : List WalkedFile) (st : DiscoverState) (w : SkillWarning),
      w ∈ st.warnings → w ∈ (files.foldl (discoverStep yamlParse) st).warnings := by
  intro files
  induction files with
  | nil => intro st w hw; simpa using hw
  | cons f fs ih =>
      intro st w hw
      rw [List.foldl_cons]
      refine ih _ w ?_
      unfold discoverStep
      cases parseSkillMD yamlParse f.path f.content with
      | error e => simp [hw]
      | ok skill =>
          cases hlk : st.seenToolNames.lookup skill.toolName <;> simp [hlk, hw]

lemma filter_eraseP_self {α : Type} (q : α → Bool) (l : List α) :
    (l.eraseP q).filter q = (l.filter q).tail := by
  induction l with
  | nil => simp
  | cons a l ih =>
      by_cases hq : q a = true
      · simp [List.eraseP_cons, hq, List.filter_cons]
      · simp only [List.eraseP_cons, hq, Bool.false_eq_true, cond_false,
          List.filter_cons]
        simp [hq, ih]

lemma filter_eraseP_disj {α : Type} (p q : α → Bool) (l : List α)
    (h : ∀ x, q x = true → p x = false) :
    (l.eraseP q).filter p = l.filter p := by
  induction l with
  | nil => simp
  | cons a l ih =>
      by_cases hq : q a = true
      · simp [List.eraseP_cons, hq, List.filter_cons, h a hq]
      · simp only [List.eraseP_cons, hq, Bool.false_eq_true, cond_false,
          List.filter_cons]
        by_cases hp : p a = true <;> simp [hp, ih]

lemma mem_map_toolName_iff_filter (l : List Skill) (t : GoStr) :
    t ∈ l.map Skill.toolName ↔ (l.filter fun s => s.toolName == t) ≠ [] := by
  constructor
  · rintro hmem hcon
    obtain ⟨s, hs, rfl⟩ := List.mem_map.mp hmem
    rw [List.filter_eq_nil_iff] at hcon
    exact hcon s hs (beq_self_eq_true _)
  · intro h
    by_contra hmem
    apply h
    rw [List.filter_eq_nil_iff]
    intro s hs
    simp only [beq_iff_eq]
    intro hcon
    exact hmem (List.mem_map.mpr ⟨s, hs, hcon⟩)

/-- The dedup invariant of discovery: for every tool name the accumulated
skill list keeps exactly the *last* valid skill generating it, and the
`seenToolNames` keys are exactly the tool names of the valid files so
far. -/
lemma discover_core_invariant (yamlParse : GoStr → Except Unit SkillFrontmatter) :
    ∀ files : List WalkedFile,
      (∀ t, ((files.foldl (discoverCore yamlParse) ([], [])).1.filter
            fun s => s.toolName == t)
          = ((validSkills yamlParse files).filter
              fun s => s.toolName == t).getLast?.toList)
      ∧ (∀ t, ((files.foldl (discoverCore yamlParse) ([], [])).2.lookup t).isSome = true
          ↔ t ∈ (validSkills yamlParse files).map Skill.toolName)
      ∧ (∀ t, (files.foldl (discoverCore yamlParse) ([], [])).2.lookup t
          = (((validToolPaths yamlParse files).filter
              fun q => q.1 == t).getLast?).map Prod.snd) := by
  intro files
  induction files using List.reverseRecOn with
  | nil =>
      refine ⟨fun t => ?_, fun t => ?_, fun t => ?_⟩ <;>
        simp [validSkills, validToolPaths, List.lookup]
  | append_singleton fs f ih =>
      obtain ⟨ih1, ih2, ih3⟩ := ih
      have hfold : (fs ++ [f]).foldl (discoverCore yamlParse) ([], [])
          = discoverCore yamlParse (fs.foldl (discoverCore yamlParse) ([], [])) f := by
        rw [List.foldl_append, List.foldl_cons, List.foldl_nil]
      set st := fs.foldl (discoverCore yamlParse) ([], []) with hst
      cases hp : parseSkillMD yamlParse f.path f.content with
      | error e =>
          have hvs : validSkills yamlParse (fs ++ [f]) = validSkills yamlParse fs := by
            simp [validSkills, List.filterMap_append, hp, Except.toOption]
          have hvt : validToolPaths yamlParse (fs ++ [f])
              = validToolPaths yamlParse fs := by
            simp [validToolPaths, List.filterMap_append, hp, Except.toOption]
          have hcore : discoverCore yamlParse st f = st := by
            simp only [discoverCore, hp]
          rw [hfold, hcore, hvs, hvt]
          exact ⟨ih1, ih2, ih3⟩
      | ok skill =>
          have hvs : validSkills yamlParse (fs ++ [f])
              = validSkills yamlParse fs ++ [skill] := by
            simp [validSkills, List.filterMap_append, hp, Except.toOption]
          have hvt : validToolPaths yamlParse (fs ++ [f])
              = validToolPaths yamlParse fs ++ [(skill.toolName, f.path)] := by
            simp [validToolPaths, List.filterMap_append, hp, Except.toOption]
          rw [hfold, hvs, hvt]
          cases hlk : st.2.lookup skill.toolName with
          | some oldPath =>
              have hcore : discoverCore yamlParse st f
                  = ((st.1.eraseP fun s => s.toolName == skill.toolName) ++ [skill],
                      (skill.toolName, f.path) :: st.2) := by
                simp only [discoverCore, hp, hlk]
              rw [hcore]
              refine ⟨?_, ?_, ?_⟩
              · intro t
                by_cases ht : t = skill.toolName
                · subst ht
                  rw [List.filter_append, filter_eraseP_self]
                  rw [ih1 skill.toolName]
                  cases hgl : ((validSkills yamlParse fs).filter
                      fun s => s.toolName == skill.toolName).getLast? <;>
                    simp [List.getLast?_append, List.filter_cons]
                · rw [List.filter_append,
                    filter_eraseP_disj _ _ _ (fun x hx => by
                      simp only [beq_iff_eq] at hx ⊢
                      simp [hx, ht]
                      exact fun hcon => ht hcon.symm)]
                  have hskill : (([skill] : List Skill).filter
                      fun s => s.toolName == t) = [] := by
                    simp [List.filter_cons]
                    intro hcon
                    exact absurd hcon.symm ht
                  rw [ih1 t]
                  rw [List.filter_append, hskill, List.append_nil, List.append_nil]

              · intro t
                by_cases ht : t = skill.toolName
                · subst ht
                  simp [List.lookup]
                · have : ((skill.toolName, f.path) :: st.2).lookup t = st.2.lookup t := by
                    simp [List.lookup, show (t == skill.toolName) = false from by
                      simpa using ht]
                  rw [this, List.map_append]
                  simp only [List.map_cons, List.map_nil, List.mem_append,
                    List.mem_singleton]
                  rw [ih2 t]
                  constructor
                  · exact Or.inl
                  · rintro (h | h)
                    · exact h
                    · exact absurd h ht
              · intro t
                by_cases ht : t = skill.toolName
                · subst ht
                  simp [List.lookup, List.filter_append, List.filter_cons,
                    List.getLast?_append]
                · have hlkt : (((skill.toolName, f.path) :: st.2).lookup t)
                      = st.2.lookup t := by
                    simp [List.lookup, show (t == skill.toolName) = false from by
                      simpa using ht]
                  have hbt : (skill.toolName == t) = false := by
                    simpa using fun hcon => ht hcon.symm
                  have hsing : (([(skill.toolName, f.path)] : List (GoStr × GoStr)).filter
                      fun q => q.1 == t) = [] := by
                    simp [List.filter_cons, hbt]
                  rw [hlkt, ih3 t, List.filter_append, hsing, List.append_nil]
          | none =>
              have hcore : discoverCore yamlParse st f
                  = (st.1 ++ [skill], (skill.toolName, f.path) :: st.2) := by
                simp only [discoverCore, hp, hlk]
              rw [hcore]
              have hnotmem : skill.toolName
                  ∉ (validSkills yamlParse fs).map Skill.toolName := by
                intro hcon
                have := (ih2 skill.toolName).mpr hcon
                rw [hlk] at this
                simp at this
              have hfilnil : ((validSkills yamlParse fs).filter
                  fun s => s.toolName == skill.toolName) = [] := by
                by_contra hcon
                exact hnotmem ((mem_map_toolName_iff_filter _ _).mpr hcon)
              refine ⟨?_, ?_, ?_⟩
              · intro t
                by_cases ht : t = skill.toolName
                · subst ht
                  rw [List.filter_append, ih1 skill.toolName, hfilnil]
                  simp [List.filter_cons, List.getLast?_append]
                · have hskill : (([skill] : List Skill).filter
                      fun s => s.toolName == t) = [] := by
                    simp [List.filter_cons]
                    intro hcon
                    exact absurd hcon.symm ht
                  rw [List.filter_append, hskill, List.append_nil, ih1 t,
                    List.filter_append, hskill, List.append_nil]
              · intro t
                by_cases ht : t = skill.toolName
                · subst ht
                  simp [List.lookup]
                · have : ((skill.toolName, f.path) :: st.2).lookup t = st.2.lookup t := by
                    simp [List.lookup, show (t == skill.toolName) = false from by
                      simpa using ht]
                  rw [this, List.map_append]
                  simp only [List.map_cons, List.map_nil, List.mem_append,
                    List.mem_singleton]
                  rw [ih2 t]
                  constructor
                  · exact Or.inl
                  · rintro (h | h)
                    · exact h
                    · exact absurd h ht
              · intro t
                by_cases ht : t = skill.toolName
                · subst ht
                  simp [List.lookup, List.filter_append, List.filter_cons,
                    List.getLast?_append]
                · have hlkt : (((skill.toolName, f.path) :: st.2).lookup t)
                      = st.2.lookup t := by
                    simp [List.lookup, show (t == skill.toolName) = false from by
                      simpa using ht]
                  have hbt : (skill.toolName == t) = false := by
                    simpa using fun hcon => ht hcon.symm
                  have hsing : (([(skill.toolName, f.path)] : List (GoStr × GoStr)).filter
                      fun q => q.1 == t) = [] := by
                    simp [List.filter_cons, hbt]
                  rw [hlkt, ih3 t, List.filter_append, hsing, List.append_nil]

lemma nodup_toolName_of_filter_le_one :
    ∀ l : List Skill,
      (∀ t, (l.filter fun s => s.toolName == t).length ≤ 1) →
      (l.map Skill.toolName).Nodup := by
  intro l
  induction l with
  | nil => simp
  | cons a l ih =>
      intro h
      simp only [List.map_cons, List.nodup_cons]
      constructor
      · intro hmem
        have hne := (mem_map_toolName_iff_filter l a.toolName).mp hmem
        have hl := h a.toolName
        rw [List.filter_cons] at hl
        simp only [beq_self_eq_true, if_true, List.length_cons] at hl
        exact hne (List.length_eq_zero.mp (by omega))
      · refine ih fun t => ?_
        have hl := h t
        rw [List.filter_cons] at hl
        by_cases hpa : (a.toolName == t) = true
        · simp only [hpa, if_true, List.length_cons] at hl
          omega
        · simpa only [hpa, Bool.false_eq_true, if_false] using hl

/-- C6: a `SKILL.md` text parses exactly when the `---`-split yields the
three parts, the middle part parses as frontmatter, the name is non-empty
and matches `^[a-z0-9-]+$`, the name equals the basename of the containing
directory, and the description is at least 20 long; and during discovery a
file that fails any of these is warned about and skipped — the remaining
files produce exactly the skills they would have produced without it
(discovery itself never fails). -/
theorem parse_and_discovery_validation :
    (∀ (yamlParse : GoStr → Except Unit SkillFrontmatter) (skillPath content : GoStr),
      (∃ s, parseSkillMD yamlParse skillPath content = .ok s) ↔
        (3 ≤ (goSplitN "---".data content 3).length
         ∧ ∃ fm, yamlParse ((goSplitN "---".data content 3).getD 1 []) = .ok fm
             ∧ fm.name ≠ []
             ∧ validateSkillName fm.name = true
             ∧ fm.name = goBase (goDir skillPath)
             ∧ 20 ≤ fm.description.length))
    ∧ (∀ (yamlParse : GoStr → Except Unit SkillFrontmatter)
        (pre post : List WalkedFile) (f : WalkedFile) (e : SkillParseError),
        parseSkillMD yamlParse f.path f.content = .error e →
        (discoverSkills yamlParse (pre ++ f :: post)).1
            = (discoverSkills yamlParse (pre ++ post)).1
          ∧ SkillWarning.parseFailed f.path e
              ∈ (discoverSkills yamlParse (pre ++ f :: post)).2) := by
  constructor
  · intro yamlParse skillPath content
    constructor
    · rintro ⟨s, hok⟩
      obtain ⟨p0, p1, p2, rest, fm, hgs, hyaml, hn, hv, hd, hdir, rfl⟩ :=
        (parseSkillMD_ok_iff yamlParse skillPath content s).mp hok
      rw [hgs]
      exact ⟨by simp, fm, by simpa using hyaml, hn, hv, hdir, hd⟩
    · rintro ⟨hlen, fm, hyaml, hn, hv, hdir, hd⟩
      rcases hgs : goSplitN "---".data content 3 with _ | ⟨a, _ | ⟨b, _ | ⟨c, rest⟩⟩⟩ <;>
        rw [hgs] at hlen <;> try simp at hlen
      rw [hgs] at hyaml
      simp only [List.getD_cons_succ, List.getD_cons_zero] at hyaml
      exact ⟨_, (parseSkillMD_ok_iff yamlParse skillPath content _).mpr
        ⟨a, b, c, rest, fm, hgs, hyaml, hn, hv, hd, hdir, rfl⟩⟩
  · intro yamlParse pre post f e hf
    have hsk : ∀ L, (discoverSkills yamlParse L).1
        = (L.foldl (discoverStep yamlParse) ⟨[], [], []⟩).allSkills := fun _ => rfl
    have hwn : ∀ L, (discoverSkills yamlParse L).2
        = (L.foldl (discoverStep yamlParse) ⟨[], [], []⟩).warnings := fun _ => rfl
    set stPre := pre.foldl (discoverStep yamlParse) ⟨[], [], []⟩ with hpre
    have hstep : discoverStep yamlParse stPre f
        = { stPre with warnings := stPre.warnings ++ [.parseFailed f.path e] } := by
      simp only [discoverStep, hf]
    constructor
    · rw [hsk, hsk, List.foldl_append, List.foldl_cons, List.foldl_append, ← hpre]
      have h1 := congrArg Prod.fst
        (foldl_step_core yamlParse post (discoverStep yamlParse stPre f))
      have h2 := congrArg Prod.fst (foldl_step_core yamlParse post stPre)
      simp only at h1 h2
      rw [h1, h2, hstep]
    · rw [hwn, List.foldl_append, List.foldl_cons, ← hpre]
      refine discover_warnings_mono yamlParse post _ _ ?_
      rw [hstep]
      simp

/-- Witness for C6: a file with no frontmatter is skipped — discovery with
and without it yields the same skills — and warned about. -/
theorem parse_and_discovery_validation_witness :
    (discoverSkills fooYaml [badFile, fooFile2]).1
        = (discoverSkills fooYaml [fooFile2]).1
      ∧ SkillWarning.parseFailed badFile.path .missingFrontmatter
          ∈ (discoverSkills fooYaml [badFile, fooFile2]).2 := by
  have h := parse_and_discovery_validation.2 fooYaml [] [fooFile2] badFile
    .missingFrontmatter (by rfl)
  simpa using h

/-- A later valid skill whose tool name an earlier valid file already
generated is recorded with a duplicate-tool-name warning naming both
paths: the path stored in `seenToolNames` — that of the last earlier valid
file with that tool name — and the colliding file's own path. -/
lemma discover_duplicate_warning (yamlParse : GoStr → Except Unit SkillFrontmatter) :
    ∀ (pre post : List WalkedFile) (f : WalkedFile) (skill : Skill)
      (p : GoStr × GoStr),
      parseSkillMD yamlParse f.path f.content = .ok skill →
      ((validToolPaths yamlParse pre).filter
          fun q => q.1 == skill.toolName).getLast? = some p →
      SkillWarning.duplicateToolName skill.toolName p.2 f.path
        ∈ (discoverSkills yamlParse (pre ++ f :: post)).2 := by
  intro pre post f skill p hf hlast
  have hwn : (discoverSkills yamlParse (pre ++ f :: post)).2
      = ((pre ++ f :: post).foldl (discoverStep yamlParse) ⟨[], [], []⟩).warnings := rfl
  rw [hwn, List.foldl_append, List.foldl_cons]
  set stPre := pre.foldl (discoverStep yamlParse) ⟨[], [], []⟩ with hpre
  have hseen : stPre.seenToolNames = (pre.foldl (discoverCore yamlParse) ([], [])).2 := by
    simpa using congrArg Prod.snd (foldl_step_core yamlParse pre ⟨[], [], []⟩)
  have hlk : stPre.seenToolNames.lookup skill.toolName = some p.2 := by
    rw [hseen, (discover_core_invariant yamlParse pre).2.2 skill.toolName, hlast]
    rfl
  have hstep : discoverStep yamlParse stPre f
      = { allSkills := (stPre.allSkills.eraseP
            fun s => s.toolName == skill.toolName) ++ [skill]
          seenToolNames := (skill.toolName, f.path) :: stPre.seenToolNames
          warnings := stPre.warnings
            ++ [.duplicateToolName skill.toolName p.2 f.path] } := by
    simp only [discoverStep, hf, hlk]
  refine discover_warnings_mono yamlParse post _ _ ?_
  rw [hstep]
  simp

/-- C8: in every discovery run, each generated tool name occurs exactly
once in the result — the skill kept for a tool name is the one from the
*last* valid file that generated it, the earlier entry having been
removed, and the collision emits a duplicate-tool-name warning naming the
earlier path and the later path — and the base directories are walked in
the fixed order XDG config, home, then project-local, so a cross-directory
collision keeps the later (project-local) skill. -/
theorem discover_dedup_later_wins :
    (∀ (yamlParse : GoStr → Except Unit SkillFrontmatter)
        (files : List WalkedFile) (t : GoStr),
        ((discoverSkills yamlParse files).1.filter fun s => s.toolName == t)
          = ((validSkills yamlParse files).filter
              fun s => s.toolName == t).getLast?.toList)
    ∧ (∀ (yamlParse : GoStr → Except Unit SkillFrontmatter) (files : List WalkedFile),
        ((discoverSkills yamlParse files).1.map Skill.toolName).Nodup)
    ∧ (∀ (xdg h wd : GoStr), xdg ≠ [] →
        getSkillBasePaths ⟨xdg, some h⟩ wd
          = [goJoin [xdg, "crush".data, "skills".data],
             goJoin [h, ".crush".data, "skills".data],
             goJoin [wd, ".crush".data, "skills".data]])
    ∧ (∀ (yamlParse : GoStr → Except Unit SkillFrontmatter)
        (pre post : List WalkedFile) (f : WalkedFile) (skill : Skill)
        (p : GoStr × GoStr),
        parseSkillMD yamlParse f.path f.content = .ok skill →
        ((validToolPaths yamlParse pre).filter
            fun q => q.1 == skill.toolName).getLast? = some p →
        SkillWarning.duplicateToolName skill.toolName p.2 f.path
          ∈ (discoverSkills yamlParse (pre ++ f :: post)).2) := by
  have hmain : ∀ (yamlParse : GoStr → Except Unit SkillFrontmatter)
      (files : List WalkedFile) (t : GoStr),
      ((discoverSkills yamlParse files).1.filter fun s => s.toolName == t)
        = ((validSkills yamlParse files).filter
            fun s => s.toolName == t).getLast?.toList := by
    intro yamlParse files t
    have hcore := congrArg Prod.fst (foldl_step_core yamlParse files ⟨[], [], []⟩)
    simp only at hcore
    have hsk : (discoverSkills yamlParse files).1
        = (files.foldl (discoverStep yamlParse) ⟨[], [], []⟩).allSkills := rfl
    rw [hsk, hcore]
    exact (discover_core_invariant yamlParse files).1 t
  refine ⟨hmain, ?_, ?_, ?_⟩
  · intro yamlParse files
    refine nodup_toolName_of_filter_le_one _ fun t => ?_
    rw [hmain yamlParse files t]
    cases ((validSkills yamlParse files).filter
        fun s => s.toolName == t).getLast? <;> simp
  · intro xdg h wd hx
    have hxe : xdg.isEmpty = false := by
      cases xdg
      · exact absurd rfl hx
      · rfl
    simp [getSkillBasePaths, hxe]
  · intro yamlParse pre post f skill p hf hlast
    exact discover_duplicate_warning yamlParse pre post f skill p hf hlast

/-- Witness for C8: with the same `foo` skill in the user configuration
directory and the project-local directory, discovery keeps exactly the
project-local one under `skills_foo` and emits the duplicate warning
naming both paths; and the three base paths come out in priority order for
a concrete environment. -/
theorem discover_dedup_later_wins_witness :
    ((discoverSkills fooYaml [fooFile1, fooFile2]).1.filter
        fun s => s.toolName == "skills_foo".data) = [fooSkill2]
      ∧ SkillWarning.duplicateToolName "skills_foo".data fooFile1.path fooFile2.path
          ∈ (discoverSkills fooYaml [fooFile1, fooFile2]).2
      ∧ getSkillBasePaths ⟨"/xdg".data, some "/home/u".data⟩ "/proj".data
          = ["/xdg/crush/skills".data, "/home/u/.crush/skills".data,
             "/proj/.crush/skills".data] := by
  refine ⟨?_, ?_, ?_⟩
  · rw [discover_dedup_later_wins.1 fooYaml [fooFile1, fooFile2] ("skills_foo".data)]
    rfl
  · have h := discover_dedup_later_wins.2.2.2 fooYaml [fooFile1] [] fooFile2 fooSkill2
      ("skills_foo".data, fooFile1.path) (by rfl) (by rfl)
    simpa using h
  · rw [discover_dedup_later_wins.2.2.1 "/xdg".data "/home/u".data "/proj".data
      (by decide)]
    rfl

end Crush
